import Mathlib

/-!
Verification of the contraction-hierarchy shortest-path engine in
`src/scripts/algorithms/planning/contraction_hierarchy.py`.

The Python classes `Edge`, `Node`, `Graph` and `ContractionHierarchy` are
embedded shallowly: Python's insertion-ordered `dict` of nodes becomes an
association list, `heapq` heaps become multisets (lists) popped at their
lexicographic minimum (exactly the tuple order `(distance, node_id)` that
`heapq` uses), float weights become exact rationals, and `math.inf` /
`None` sentinels become `Option ℚ` with `none` standing for "no value".
Loops that Python runs as `while` loops are modelled with explicit fuel
chosen large enough to cover every iteration the Python loop can perform;
exhausting the fuel behaves exactly like the loop exiting.
-/

namespace CHSpec

/-- Embeds the Python `Edge` class: a directed edge to `target` of rational
weight. -/
structure Edge where
  target : Nat
  weight : ℚ
deriving Repr, DecidableEq

/-- Embeds the Python `Node` class: identifier, positional metadata,
outgoing edge list, contraction bookkeeping (`contraction_order = -1`
means "not contracted yet"). -/
structure Node where
  id : Nat
  lat : ℚ
  lon : ℚ
  edges : List Edge
  contraction_order : Int
  level : Int
  shortcuts_added : Nat
deriving Repr, DecidableEq

/-- The node record `Node.__init__` produces. -/
def mkNode (node_id : Nat) (lat lon : ℚ) : Node :=
  { id := node_id, lat := lat, lon := lon, edges := [],
    contraction_order := -1, level := 0, shortcuts_added := 0 }

/-- Placeholder node returned when a key is absent; Python would raise
`KeyError` there, and no operation modelled below performs such a lookup
on the well-formed graphs the claims quantify over. -/
def dummyNode : Node := mkNode 0 0 0

/-- Embeds the Python `Graph` class: `nodes` is the insertion-ordered
dict, with the two bookkeeping counters. -/
structure Graph where
  nodes : List (Nat × Node)
  num_nodes : Nat
  num_edges : Nat
deriving Repr, DecidableEq

def Graph.empty : Graph := { nodes := [], num_nodes := 0, num_edges := 0 }

/-- Dict lookup: first entry with the given key. -/
def findNode? : List (Nat × Node) → Nat → Option Node
  | [], _ => none
  | (k, n) :: rest, i => if k = i then some n else findNode? rest i

def Graph.find? (g : Graph) (i : Nat) : Option Node := findNode? g.nodes i

def Graph.getNode (g : Graph) (i : Nat) : Node := (g.find? i).getD dummyNode

def Graph.contains (g : Graph) (i : Nat) : Bool := (g.find? i).isSome

/-- Embeds `Graph.add_node`: inserts a fresh node only when the key is not
yet present. -/
def Graph.add_node (g : Graph) (node_id : Nat) (lat lon : ℚ) : Graph :=
  if g.contains node_id then g
  else
    let entry : Nat × Node := (node_id, mkNode node_id lat lon)
    { g with nodes := g.nodes ++ [entry], num_nodes := g.num_nodes + 1 }

/-- Replaces the record stored at key `i` (every occurrence of the key,
though the API never creates duplicate keys). -/
def setNodeList : List (Nat × Node) → Nat → Node → List (Nat × Node)
  | [], _, _ => []
  | (k, m) :: rest, i, n =>
    if k = i then (i, n) :: setNodeList rest i n
    else (k, m) :: setNodeList rest i n

/-- The mutation `self.nodes[i] = n` (in Python, attribute assignment on
the shared node object): the stored record at key `i` is replaced. -/
def Graph.setNode (g : Graph) (i : Nat) (n : Node) : Graph :=
  { g with nodes := setNodeList g.nodes i n }

/-- Embeds `Graph.add_edge`: appends the edge to the source node's list
only when both endpoints are present; otherwise the graph is returned
unchanged (the silent drop the spec flags in section 7). -/
def Graph.add_edge (g : Graph) (source target : Nat) (weight : ℚ) : Graph :=
  if g.contains source && g.contains target then
    let n := g.getNode source
    let g' := g.setNode source { n with edges := n.edges ++ [⟨target, weight⟩] }
    { g' with num_edges := g'.num_edges + 1 }
  else g

/-- Total number of edge entries, used to size loop fuel. -/
def Graph.edgeCount (g : Graph) : Nat :=
  g.nodes.foldl (fun acc p => acc + p.2.edges.length) 0

/-! ### Priority queues

Python's `heapq` stores `(distance, node_id)` tuples and pops the smallest
under lexicographic tuple order.  A heap is modelled as the list of its
entries; popping removes the lexicographically least entry. -/

def heapLt (a b : ℚ × Nat) : Bool := a.1 < b.1 || (a.1 = b.1 && a.2 < b.2)

def heapMinAux (cur : ℚ × Nat) : List (ℚ × Nat) → ℚ × Nat
  | [] => cur
  | x :: xs => if heapLt x cur then heapMinAux x xs else heapMinAux cur xs

def heapMin : List (ℚ × Nat) → Option (ℚ × Nat)
  | [] => none
  | x :: xs => some (heapMinAux x xs)

/-- `heapq.heappop`: returns the least entry and the remaining heap. -/
def popMin (l : List (ℚ × Nat)) : Option ((ℚ × Nat) × List (ℚ × Nat)) :=
  match heapMin l with
  | none => none
  | some m => some (m, l.erase m)

/-! ### Infinity-aware comparisons: `none` models `math.inf`. -/

/-- `d < dist[v]` where `dist[v]` may be `math.inf`. -/
def ltInf (d : ℚ) (o : Option ℚ) : Bool :=
  match o with
  | none => true
  | some q => d < q

/-- `d > best` where `best` may be `math.inf` (then always false). -/
def gtBest (d : ℚ) (o : Option ℚ) : Bool :=
  match o with
  | none => false
  | some q => q < d

/-! ### Plain Dijkstra (`Graph.dijkstra` with the default `max_level = inf`,
under which the level filter never triggers). -/

/-- One run of the Python `while heap:` loop in `Graph.dijkstra`.
`math.inf` as a result is rendered `none`. -/
def dijkstraLoop (g : Graph) (endv : Nat) :
    Nat → List (ℚ × Nat) → (Nat → Option ℚ) → List Nat → Option ℚ
  | 0, _, _, _ => none
  | fuel + 1, heap, dist, visited =>
    match popMin heap with
    | none => none
    | some ((d, u), rest) =>
      if u = endv then some d
      else if u ∈ visited then dijkstraLoop g endv fuel rest dist visited
      else
        let st := (g.getNode u).edges.foldl
          (fun (s : (Nat → Option ℚ) × List (ℚ × Nat)) e =>
            let cand := d + e.weight
            if ltInf cand (s.1 e.target) then
              (fun v => if v = e.target then some cand else s.1 v,
               s.2 ++ [(cand, e.target)])
            else s) (dist, rest)
        dijkstraLoop g endv fuel st.2 st.1 (u :: visited)

/-- Embeds `Graph.dijkstra(start, end)`: every loop iteration pops one heap
entry, and at most `1 + edgeCount` entries are ever pushed, so the fuel
covers every iteration the Python loop performs. -/
def Graph.dijkstra (g : Graph) (start endv : Nat) : Option ℚ :=
  dijkstraLoop g endv (2 + g.edgeCount + g.nodes.length)
    [(0, start)] (fun v => if v = start then some 0 else none) []

/-! ### Importance estimator (`ContractionHierarchy.compute_importance` and
`ContractionHierarchy.estimate_shortcuts`).  The importance heuristic is run
against the shared mutable graph, so both take the current `Graph`. -/

/-- Embeds `estimate_shortcuts`: counts the node's outgoing edges whose
target is still uncontracted (a Python list, so duplicates count), and
returns `k * (k - 1)` over that count, `0` when it is below two. -/
def estimate_shortcuts (g : Graph) (node_id : Nat) : Nat :=
  let node := g.getNode node_id
  let neighbors := (node.edges.filter
    (fun e => (g.getNode e.target).contraction_order = -1)).map Edge.target
  if neighbors.length < 2 then 0
  else neighbors.length * (neighbors.length - 1)

/-- Embeds `compute_importance`:
`(edge_diff - contracted_neighbors) + shortcut_count + shortcuts_added`,
all counts taken over the outgoing edge list. -/
def compute_importance (g : Graph) (node_id : Nat) : Int :=
  let node := g.getNode node_id
  let edge_diff : Int := node.edges.length
  let contracted_neighbors : Int := (node.edges.filter
    (fun e => (g.getNode e.target).contraction_order ≠ -1)).length
  let shortcut_count : Int := estimate_shortcuts g node_id
  (edge_diff - contracted_neighbors) + shortcut_count + node.shortcuts_added

/-! ### Contraction engine (`ContractionHierarchy.contract_node`). -/

/-- Weight of the first edge from `u` to `v`, if any: the Python
`for edge in ...: if edge.target == v: ...; break` scan. -/
def findEdgeWeight (g : Graph) (u v : Nat) : Option ℚ :=
  ((g.getNode u).edges.find? (fun e => e.target = v)).map Edge.weight

/-- The index pairs `(i, j)` with `i < j` of the Python double loop, as the
corresponding element pairs in loop order. -/
def orderedPairs : List Nat → List (Nat × Nat)
  | [] => []
  | x :: xs => xs.map (fun y => (x, y)) ++ orderedPairs xs

/-- Option-level sum of two looked-up edge weights: `path_through` is set
only when both constituent edges exist. -/
def optAdd (a b : Option ℚ) : Option ℚ :=
  match a, b with
  | some x, some y => some (x + y)
  | _, _ => none

/-- One `# Add shortcuts if needed` block of `contract_node`: insert the
shortcut `x → y` of weight `pt` when a path through the contracted node
exists and beats the (pre-pair) direct edge weight `existing`. -/
def shortcutStep (x y : Nat) (pt existing : Option ℚ) (st : Graph × Nat) :
    Graph × Nat :=
  match pt with
  | some w =>
    if existing.isNone || ltInf w existing then (st.1.add_edge x y w, st.2 + 1)
    else st
  | none => st

/-- The body of `contract_node`'s pair loop for one neighbor pair `(u, v)`:
all edge lookups read the graph as mutated by earlier pairs (and not by the
current pair, whose lookups all precede its insertions), then up to two
shortcuts are inserted in sequence. -/
def contractPair (node_id : Nat) (st : Graph × Nat) (p : Nat × Nat) : Graph × Nat :=
  let g := st.1
  let u := p.1
  let v := p.2
  let uv_weight := findEdgeWeight g u v
  let vu_weight := findEdgeWeight g v u
  let u_node_weight := findEdgeWeight g u node_id
  let node_v_weight := findEdgeWeight g node_id v
  let v_node_weight := findEdgeWeight g v node_id
  let node_u_weight := findEdgeWeight g node_id u
  let path_through := optAdd u_node_weight node_v_weight
  let path_through_rev := optAdd v_node_weight node_u_weight
  shortcutStep v u path_through_rev vu_weight
    (shortcutStep u v path_through uv_weight st)

/-- Embeds `contract_node`: snapshots the uncontracted neighbor list, folds
the pair loop over all index pairs `i < j`, then stores the shortcut count
on the contracted node.  Returns the mutated graph and the count. -/
def contract_node (g : Graph) (node_id : Nat) : Graph × Nat :=
  let node := g.getNode node_id
  let neighbors := (node.edges.filter
    (fun e => (g.getNode e.target).contraction_order = -1)).map Edge.target
  let st := (orderedPairs neighbors).foldl (contractPair node_id) (g, 0)
  let node' := st.1.getNode node_id
  (st.1.setNode node_id { node' with shortcuts_added := st.2 }, st.2)

/-! ### Hierarchy builder (`ContractionHierarchy.build`). -/

/-- The Python min-scan over `remaining_nodes`: `min_importance` starts at
`math.inf`, so the first node always becomes the initial candidate and only
a strictly smaller importance replaces it. -/
def selectMinAux (g : Graph) (bestImp : Int) (bestNode : Nat) : List Nat → Nat
  | [] => bestNode
  | n :: rest =>
    let imp := compute_importance g n
    if imp < bestImp then selectMinAux g imp n rest
    else selectMinAux g bestImp bestNode rest

/-- The selected `next_node` of one `build` iteration (`none` exactly when
no nodes remain). -/
def selectMin (g : Graph) : List Nat → Option Nat
  | [] => none
  | n :: rest => some (selectMinAux g (compute_importance g n) n rest)

/-- Marks a node contracted with the given rank, as the two assignments
`contraction_order = order` and `level = order` in `build`'s loop. -/
def markContracted (g : Graph) (nid : Nat) (ord : Nat) : Graph :=
  g.setNode nid
    { g.getNode nid with contraction_order := (ord : Int), level := (ord : Int) }

/-- The `while remaining_nodes:` loop of `build`: select the minimum
importance node, contract it, rank it, and repeat.  Returns the final graph
and the `contraction_order` list.  The loop removes one remaining vertex
per iteration, so running it on fuel `remaining.length` reproduces the
Python loop exactly (fuel hits zero only once `remaining` is empty). -/
def buildLoop : Nat → Graph → Nat → List Nat → List Nat → Graph × List Nat
  | 0, g, _, _, acc => (g, acc)
  | fuel + 1, g, ord, remaining, acc =>
    match selectMin g remaining with
    | none => (g, acc)
    | some nid =>
      buildLoop fuel (markContracted (contract_node g nid).1 nid ord) (ord + 1)
        (remaining.erase nid) (acc ++ [nid])

/-- Embeds the `ContractionHierarchy` object after `build`. -/
structure ContractionHierarchy where
  graph : Graph
  upward_graph : Graph
  downward_graph : Graph
  contraction_order : List Nat
deriving Repr

/-- The final edge-classification loop of `build`: `u → v` goes to the
upward graph when `order(u) < order(v)`, otherwise the reversed edge
`v → u` goes to the downward graph. -/
def partitionEdges (g : Graph) (updown : Graph × Graph) : Graph × Graph :=
  g.nodes.foldl (fun ud p =>
    p.2.edges.foldl (fun (ud : Graph × Graph) e =>
      if p.2.contraction_order < (g.getNode e.target).contraction_order then
        (ud.1.add_edge p.1 e.target e.weight, ud.2)
      else
        (ud.1, ud.2.add_edge e.target p.1 e.weight)) ud) updown

/-- Embeds `ContractionHierarchy.build` run on graph `g`: node copies into
the derived graphs, the contraction loop, then the edge partition.  Python
iterates the `remaining_nodes` set of small integer ids in ascending ==
insertion order, which the key list reproduces. -/
def ContractionHierarchy.build (g : Graph) : ContractionHierarchy :=
  let up0 := g.nodes.foldl (fun (h : Graph) p => h.add_node p.1 p.2.lat p.2.lon)
    Graph.empty
  let down0 := g.nodes.foldl (fun (h : Graph) p => h.add_node p.1 p.2.lat p.2.lon)
    Graph.empty
  let gl := buildLoop (g.nodes.map Prod.fst).length g 0 (g.nodes.map Prod.fst) []
  let ud := partitionEdges gl.1 (up0, down0)
  { graph := gl.1, upward_graph := ud.1, downward_graph := ud.2,
    contraction_order := gl.2 }

/-! ### Query engine (`ContractionHierarchy.query`). -/

/-- State of the bidirectional search: distance maps (`none` = `math.inf`),
heaps, visited sets, and the best combined distance (`none` = `math.inf`). -/
structure QState where
  fdist : Nat → Option ℚ
  fheap : List (ℚ × Nat)
  fvisited : List Nat
  bdist : Nat → Option ℚ
  bheap : List (ℚ × Nat)
  bvisited : List Nat
  best : Option ℚ

/-- The body of a forward (or, with the roles swapped, backward) visit:
mark visited, tighten `best` against the other side's distance at `u`, then
relax the outgoing edges of `u` in that side's search graph. -/
def visitNode (searchGraph : Graph) (otherDist : Nat → Option ℚ)
    (dist : Nat → Option ℚ) (heap : List (ℚ × Nat)) (visited : List Nat)
    (best : Option ℚ) (d : ℚ) (u : Nat) :
    (Nat → Option ℚ) × List (ℚ × Nat) × List Nat × Option ℚ :=
  let best' : Option ℚ :=
    match otherDist u with
    | none => best
    | some od => if ltInf (od + d) best then some (od + d) else best
  let st := (searchGraph.getNode u).edges.foldl
    (fun (s : (Nat → Option ℚ) × List (ℚ × Nat)) e =>
      let cand := d + e.weight
      if ltInf cand (s.1 e.target) then
        (fun v => if v = e.target then some cand else s.1 v,
         s.2 ++ [(cand, e.target)])
      else s) (dist, heap)
  (st.1, st.2, u :: visited, best')

/-- One iteration of `query`'s `while forward_heap and backward_heap:` loop.
The returned flag is `false` exactly when a `break` fires (a popped key
exceeds `best`) or the loop guard fails; `continue` after a stale forward
pop skips the backward step of that iteration, as in the Python code. -/
def queryIter (up down : Graph) (st : QState) : QState × Bool :=
  if st.fheap.isEmpty || st.bheap.isEmpty then (st, false)
  else
    match popMin st.fheap with
    | none => (st, false)
    | some ((d, u), rest) =>
      if gtBest d st.best then ({ st with fheap := rest }, false)
      else if u ∈ st.fvisited then ({ st with fheap := rest }, true)
      else
        let f := visitNode up st.bdist st.fdist rest st.fvisited st.best d u
        let st1 : QState :=
          { st with
            fdist := f.1
            fheap := f.2.1
            fvisited := f.2.2.1
            best := f.2.2.2 }
        match popMin st1.bheap with
        | none => (st1, true)
        | some ((d2, u2), rest2) =>
          if gtBest d2 st1.best then ({ st1 with bheap := rest2 }, false)
          else if u2 ∈ st1.bvisited then ({ st1 with bheap := rest2 }, true)
          else
            let b := visitNode down st1.fdist st1.bdist rest2 st1.bvisited
              st1.best d2 u2
            let st2 : QState :=
              { st1 with
                bdist := b.1
                bheap := b.2.1
                bvisited := b.2.2.1
                best := b.2.2.2 }
            (st2, true)

/-- The query loop, driven by fuel; fuel exhaustion behaves exactly like
the loop exiting. -/
def queryLoop (up down : Graph) : Nat → QState → QState
  | 0, st => st
  | fuel + 1, st =>
    match queryIter up down st with
    | (st', false) => st'
    | (st', true) => queryLoop up down fuel st'

/-- The search state `query(start, end)` begins from. -/
def initQState (start endv : Nat) : QState :=
  { fdist := fun v => if v = start then some 0 else none
    fheap := [(0, start)]
    fvisited := []
    bdist := fun v => if v = endv then some 0 else none
    bheap := [(0, endv)]
    bvisited := []
    best := none }

/-- The search state after the forward step of one query iteration visits
`u` at key `d` (with the forward heap already popped down to `rest`): the
`st1` of `queryIter`. -/
def fwdVisitState (up : Graph) (st : QState) (d : ℚ) (u : Nat)
    (rest : List (ℚ × Nat)) : QState :=
  let f := visitNode up st.bdist st.fdist rest st.fvisited st.best d u
  { st with
    fdist := f.1
    fheap := f.2.1
    fvisited := f.2.2.1
    best := f.2.2.2 }

/-- Every iteration pops at least one forward-heap entry and at most
`1 + edgeCount upward` entries are ever pushed there, so this fuel covers
every iteration the Python loop performs. -/
def queryFuel (ch : ContractionHierarchy) : Nat :=
  2 + ch.upward_graph.edgeCount + ch.downward_graph.edgeCount +
    ch.graph.nodes.length

/-- The final state of `query`'s loop. -/
def queryFinal (ch : ContractionHierarchy) (start endv : Nat) : QState :=
  queryLoop ch.upward_graph ch.downward_graph (queryFuel ch)
    (initQState start endv)

/-- Embeds `ContractionHierarchy.query`: the best combined distance of the
final state, `none` when it is still `math.inf`. -/
def ContractionHierarchy.query (ch : ContractionHierarchy) (start endv : Nat) :
    Option ℚ :=
  (queryFinal ch start endv).best

/-! ### Concrete input graphs used by the claim instances. -/

/-- Builds a graph on vertices `1..n` (positions zero, unused by the
algorithms) with the given directed weighted edges. -/
def mkGraph (n : Nat) (es : List (Nat × Nat × ℚ)) : Graph :=
  es.foldl (fun g e => g.add_edge e.1 e.2.1 e.2.2)
    ((List.range n).foldl (fun g i => g.add_node (i + 1) 0 0) Graph.empty)

/-- Directed path `1 → 2 → 3` with unit weights: vertex 2 has in-neighbor 1
and out-neighbor 3, which the contraction step never pairs. -/
def gC1 : Graph := mkGraph 3 [(1, 2, 1), (2, 3, 1)]

/-- Embeds `create_sample_graph`: the bidirectional unit square `1-2-4-3`
plus hub `5` joined to all four outer vertices with weight `1/2`. -/
def gSample : Graph :=
  ((((((((((((((((((((Graph.empty.add_node 1 0 0).add_node 2 1 0).add_node 3
    0 1).add_node 4 1 1).add_node 5 (1/2) (1/2)).add_edge 1 2 1).add_edge 2 1
    1).add_edge 1 3 1).add_edge 3 1 1).add_edge 2 4 1).add_edge 4 2
    1).add_edge 3 4 1).add_edge 4 3 1).add_edge 1 5 (1/2)).add_edge 5 1
    (1/2)).add_edge 2 5 (1/2)).add_edge 5 2 (1/2)).add_edge 3 5
    (1/2)).add_edge 5 3 (1/2)).add_edge 4 5 (1/2)).add_edge 5 4 (1/2)

/-- Two vertices with a duplicated edge `1 → 2`. -/
def gDup : Graph := mkGraph 2 [(1, 2, 1), (1, 2, 1)]

/-- A single vertex carrying a self-loop. -/
def gLoop : Graph := mkGraph 1 [(1, 1, 1)]

/-- A single vertex and no edges. -/
def g1v : Graph := Graph.empty.add_node 1 0 0

/-- A directed graph on which the query loop pops a forward key above
`best` while the backward frontier still holds keys below `best`: vertex 1
reaches the meeting vertex 3 cheaply and vertices 4, 5 expensively, while
6 and 7 feed vertex 2 cheaply; the duplicated heavy edges pin the
contraction order. -/
def gT : Graph := mkGraph 7
  [(1, 3, 3/10), (1, 4, 5), (1, 5, 6), (3, 2, 3/10), (6, 2, 2/5),
   (7, 2, 9/20), (3, 4, 1), (3, 4, 1), (3, 4, 1), (3, 4, 1),
   (4, 3, 1), (4, 3, 1), (4, 3, 1), (5, 3, 1), (5, 3, 1), (5, 3, 1)]

/-- The exit condition claim C6 describes: the loop runs until each
frontier is exhausted or its minimum key exceeds `best`. -/
def claimedExitCheck (st : QState) : Bool :=
  (st.fheap.isEmpty || (match heapMin st.fheap with
    | none => true
    | some m => gtBest m.1 st.best)) &&
  (st.bheap.isEmpty || (match heapMin st.bheap with
    | none => true
    | some m => gtBest m.1 st.best))

/-- A concrete mid-query state whose forward-heap minimum exceeds `best`
while the backward frontier is nonempty. -/
def wState : QState :=
  { fdist := fun v => if v = 1 then some 0 else none
    fheap := [(2, 9), (3, 7)]
    fvisited := [1]
    bdist := fun v => if v = 2 then some 0 else none
    bheap := [(1, 4)]
    bvisited := [2]
    best := some 1 }

/-! ### Basic lemmas about the graph store. -/

/-! ### Paths and their weights.

`PathW g s t w` holds when the graph contains a directed walk from `s` to
`t` whose edge weights sum to `w`; the shortest-path distance of a pair is
the infimum of its path-weight set, so two graphs with the same `PathW`
relation have identical shortest-path distances everywhere, including
identical no-path behavior. -/

def hasEdgeW (g : Graph) (u v : Nat) (w : ℚ) : Prop :=
  ∃ e, e ∈ (g.getNode u).edges ∧ e.target = v ∧ e.weight = w

inductive PathW (g : Graph) : Nat → Nat → ℚ → Prop
  | nil (u : Nat) : PathW g u u 0
  | cons {u v t : Nat} {w1 w2 : ℚ} :
      hasEdgeW g u v w1 → PathW g v t w2 → PathW g u t (w1 + w2)

/-- An arbitrary sequence of contract-then-rank operations, exactly as
`build`'s loop performs them. -/
def contractionSequence (g : Graph) : List (Nat × Nat) → Graph
  | [] => g
  | step :: rest =>
    contractionSequence (markContracted (contract_node g step.1).1 step.1 step.2) rest

/-- `g'` extends `g` additively at node `u`: the old edge list is an
unchanged initial segment of the new one. -/
def edgesExtend (g g' : Graph) (u : Nat) : Prop :=
  ∃ rest, (g'.getNode u).edges = (g.getNode u).edges ++ rest

/-- A compact record of the vertex metadata the builder must not touch. -/
def nodeMeta (n : Node) : Nat × ℚ × ℚ := (n.id, n.lat, n.lon)

/-- Joint soundness invariant of the bidirectional search state: every
finite distance entry and every heap key is the weight of a real path in
that side's search graph, and any finite `best` is the combined weight of
an up-path and a down-path meeting at some vertex. -/
def QInv (up down : Graph) (s t : Nat) (st : QState) : Prop :=
  (∀ p ∈ st.fheap, PathW up s p.2 p.1) ∧
  (∀ u d, st.fdist u = some d → PathW up s u d) ∧
  (∀ p ∈ st.bheap, PathW down t p.2 p.1) ∧
  (∀ u d, st.bdist u = some d → PathW down t u d) ∧
  (∀ b, st.best = some b →
    ∃ u d1 d2, PathW up s u d1 ∧ PathW down t u d2 ∧ b = d1 + d2)

/-- The importance formula with neighbor counts taken per outgoing edge
(with multiplicity), which is what the code computes. -/
def importanceFormula (g : Graph) (v : Nat) : Int :=
  let node := g.getNode v
  let contracted_edges : Int :=
    (node.edges.filter (fun e => (g.getNode e.target).contraction_order ≠ -1)).length
  let k : Int :=
    (node.edges.filter (fun e => (g.getNode e.target).contraction_order = -1)).length
  ((node.edges.length : Int) - contracted_edges) + k * (k - 1) + node.shortcuts_added

/-- The importance formula exactly as the claim words it: neighbor counts
range over distinct neighbor vertices rather than over outgoing edges. -/
def claimedImportance (g : Graph) (v : Nat) : Int :=
  let node := g.getNode v
  let nbrs := (node.edges.map Edge.target).dedup
  let contracted_neighbor_count : Int :=
    (nbrs.filter (fun x => (g.getNode x).contraction_order ≠ -1)).length
  let k : Int := (nbrs.filter (fun x => (g.getNode x).contraction_order = -1)).length
  ((node.edges.length : Int) - contracted_neighbor_count) + k * (k - 1) +
    node.shortcuts_added


theorem selectMinAux_mem (g : Graph) (bestImp : Int) (bestNode : Nat)
    (l : List Nat) : selectMinAux g bestImp bestNode l = bestNode ∨
      selectMinAux g bestImp bestNode l ∈ l := by
  induction l generalizing bestImp bestNode with
  | nil => left; rfl
  | cons n rest ih =>
    simp only [selectMinAux]
    by_cases h : compute_importance g n < bestImp
    · simp only [if_pos h]
      rcases ih (compute_importance g n) n with h1 | h1
      · right; rw [h1]; exact List.mem_cons_self n rest
      · right; exact List.mem_cons_of_mem n h1
    · simp only [if_neg h]
      rcases ih bestImp bestNode with h1 | h1
      · left; exact h1
      · right; exact List.mem_cons_of_mem n h1

theorem selectMin_mem (g : Graph) (l : List Nat) (nid : Nat)
    (h : selectMin g l = some nid) : nid ∈ l := by
  cases l with
  | nil => simp [selectMin] at h
  | cons n rest =>
    simp only [selectMin, Option.some.injEq] at h
    rcases selectMinAux_mem g (compute_importance g n) n rest with h1 | h1
    · rw [← h, h1]; exact List.mem_cons_self n rest
    · rw [← h]; exact List.mem_cons_of_mem n h1


theorem foldl_inv {α β : Type} (Inv : β → Prop) (f : β → α → β) (l : List α)
    (init : β) (h0 : Inv init)
    (hstep : ∀ acc x, x ∈ l → Inv acc → Inv (f acc x)) :
    Inv (l.foldl f init) := by
  induction l generalizing init with
  | nil => exact h0
  | cons x xs ih =>
    exact ih (f init x) (hstep init x (List.mem_cons_self x xs) h0)
      (fun acc y hy => hstep acc y (List.mem_cons_of_mem x hy))

theorem findNode?_setNode (l : List (Nat × Node)) (i : Nat) (n : Node) (j : Nat) :
    findNode? (setNodeList l i n) j =
      if j = i then (findNode? l i).map (fun _ => n) else findNode? l j := by
  induction l with
  | nil => by_cases h : j = i <;> simp [findNode?, setNodeList, h]
  | cons p rest ih =>
    obtain ⟨k, m⟩ := p
    simp only [setNodeList]
    by_cases hp : k = i <;> by_cases hkj : k = j <;>
      simp only [if_pos, if_neg, hp, hkj, findNode?, ih] <;>
      simp_all [findNode?] <;> split_ifs <;> simp_all

theorem find?_setNode (g : Graph) (i : Nat) (n : Node) (j : Nat) :
    (g.setNode i n).find? j =
      if j = i then (g.find? i).map (fun _ => n) else g.find? j := by
  simpa [Graph.setNode, Graph.find?] using findNode?_setNode g.nodes i n j

theorem contains_setNode (g : Graph) (i : Nat) (n : Node) (j : Nat) :
    (g.setNode i n).contains j = g.contains j := by
  simp only [Graph.contains, find?_setNode]
  by_cases h : j = i
  · subst h
    cases g.find? j <;> simp
  · simp [h]

theorem getNode_setNode_self (g : Graph) (i : Nat) (n : Node)
    (h : g.contains i = true) : (g.setNode i n).getNode i = n := by
  simp only [Graph.contains, Option.isSome_iff_exists] at h
  obtain ⟨m, hm⟩ := h
  simp [Graph.getNode, find?_setNode, hm]

theorem getNode_setNode_other (g : Graph) (i : Nat) (n : Node) (j : Nat)
    (h : j ≠ i) : (g.setNode i n).getNode j = g.getNode j := by
  simp [Graph.getNode, find?_setNode, h]

theorem getNode_setNode_absent (g : Graph) (i : Nat) (n : Node)
    (h : g.contains i = false) : (g.setNode i n).getNode i = g.getNode i := by
  have h' : g.find? i = none := by
    cases hf : g.find? i with
    | none => rfl
    | some m => simp [Graph.contains, hf] at h
  simp [Graph.getNode, find?_setNode, h']

theorem keys_setNodeList (l : List (Nat × Node)) (i : Nat) (n : Node) :
    (setNodeList l i n).map Prod.fst = l.map Prod.fst := by
  induction l with
  | nil => rfl
  | cons p rest ih =>
    obtain ⟨k, m⟩ := p
    by_cases h : k = i
    · subst h; simp [setNodeList, ih]
    · simp [setNodeList, h, ih]

theorem keys_setNode (g : Graph) (i : Nat) (n : Node) :
    (g.setNode i n).nodes.map Prod.fst = g.nodes.map Prod.fst :=
  keys_setNodeList g.nodes i n

theorem keys_add_edge (g : Graph) (s t : Nat) (w : ℚ) :
    (g.add_edge s t w).nodes.map Prod.fst = g.nodes.map Prod.fst := by
  unfold Graph.add_edge
  by_cases h : (g.contains s && g.contains t) = true
  · simp only [h, if_true]
    exact keys_setNode g s _
  · simp [h]

theorem contains_congr_keys {g g' : Graph}
    (h : g'.nodes.map Prod.fst = g.nodes.map Prod.fst) (j : Nat) :
    g'.contains j = g.contains j := by
  have aux : ∀ (l l' : List (Nat × Node)), l'.map Prod.fst = l.map Prod.fst →
      (findNode? l' j).isSome = (findNode? l j).isSome := by
    intro l
    induction l with
    | nil => intro l' h'; cases l' <;> simp_all [findNode?]
    | cons p rest ih =>
      intro l' h'
      cases l' with
      | nil => simp at h'
      | cons q rest' =>
        simp only [List.map_cons, List.cons.injEq] at h'
        simp only [findNode?, h'.1]
        by_cases hj : p.1 = j
        · simp [hj]
        · simp [hj, ih rest' h'.2]
  exact aux g.nodes g'.nodes h

theorem contains_add_edge (g : Graph) (s t : Nat) (w : ℚ) (j : Nat) :
    (g.add_edge s t w).contains j = g.contains j :=
  contains_congr_keys (keys_add_edge g s t w) j

theorem add_edge_not_contains (g : Graph) (s t : Nat) (w : ℚ)
    (h : (g.contains s && g.contains t) = false) : g.add_edge s t w = g := by
  unfold Graph.add_edge
  simp [h]

theorem getNode_add_edge_self (g : Graph) (s t : Nat) (w : ℚ)
    (h : (g.contains s && g.contains t) = true) :
    (g.add_edge s t w).getNode s =
      { g.getNode s with edges := (g.getNode s).edges ++ [⟨t, w⟩] } := by
  have hs : g.contains s = true := by
    cases hcs : g.contains s with
    | true => rfl
    | false => rw [hcs] at h; simp at h
  unfold Graph.add_edge
  rw [if_pos h]
  show (g.setNode s _).getNode s = _
  exact getNode_setNode_self g s _ hs

theorem getNode_add_edge_ne (g : Graph) (s t : Nat) (w : ℚ) (u : Nat)
    (h : u ≠ s) : (g.add_edge s t w).getNode u = g.getNode u := by
  unfold Graph.add_edge
  by_cases hc : (g.contains s && g.contains t) = true
  · rw [if_pos hc]
    show (g.setNode s _).getNode u = _
    exact getNode_setNode_other g s _ u h
  · simp [hc]

theorem order_add_edge (g : Graph) (s t : Nat) (w : ℚ) (u : Nat) :
    ((g.add_edge s t w).getNode u).contraction_order =
      (g.getNode u).contraction_order := by
  by_cases hu : u = s
  · subst hu
    by_cases hc : (g.contains u && g.contains t) = true
    · rw [getNode_add_edge_self g u t w hc]
    · rw [add_edge_not_contains g u t w (by simpa using hc)]
  · rw [getNode_add_edge_ne g s t w u hu]

theorem shortcuts_add_edge (g : Graph) (s t : Nat) (w : ℚ) (u : Nat) :
    ((g.add_edge s t w).getNode u).shortcuts_added =
      (g.getNode u).shortcuts_added := by
  by_cases hu : u = s
  · subst hu
    by_cases hc : (g.contains u && g.contains t) = true
    · rw [getNode_add_edge_self g u t w hc]
    · rw [add_edge_not_contains g u t w (by simpa using hc)]
  · rw [getNode_add_edge_ne g s t w u hu]

theorem meta_add_edge (g : Graph) (s t : Nat) (w : ℚ) (u : Nat) :
    ((g.add_edge s t w).getNode u).id = (g.getNode u).id ∧
    ((g.add_edge s t w).getNode u).lat = (g.getNode u).lat ∧
    ((g.add_edge s t w).getNode u).lon = (g.getNode u).lon := by
  by_cases hu : u = s
  · subst hu
    by_cases hc : (g.contains u && g.contains t) = true
    · rw [getNode_add_edge_self g u t w hc]
      exact ⟨rfl, rfl, rfl⟩
    · rw [add_edge_not_contains g u t w (by simpa using hc)]
      exact ⟨rfl, rfl, rfl⟩
  · rw [getNode_add_edge_ne g s t w u hu]
    exact ⟨rfl, rfl, rfl⟩

/-- `add_edge` only ever appends to edge lists. -/
theorem edges_add_edge_append (g : Graph) (s t : Nat) (w : ℚ) (u : Nat) :
    ∃ rest, ((g.add_edge s t w).getNode u).edges = (g.getNode u).edges ++ rest := by
  by_cases hu : u = s
  · subst hu
    by_cases hc : (g.contains u && g.contains t) = true
    · exact ⟨[⟨t, w⟩], by rw [getNode_add_edge_self g u t w hc]⟩
    · exact ⟨[], by rw [add_edge_not_contains g u t w (by simpa using hc)]; simp⟩
  · exact ⟨[], by rw [getNode_add_edge_ne g s t w u hu]; simp⟩

theorem PathW.mono {g g' : Graph}
    (hedge : ∀ u v w, hasEdgeW g u v w → hasEdgeW g' u v w) :
    ∀ {s t : Nat} {w : ℚ}, PathW g s t w → PathW g' s t w := by
  intro s t w hp
  induction hp with
  | nil u => exact PathW.nil u
  | cons he _ ih => exact PathW.cons (hedge _ _ _ he) ih

theorem PathW.append {g : Graph} {a b c : Nat} {w1 w2 : ℚ}
    (h1 : PathW g a b w1) (h2 : PathW g b c w2) : PathW g a c (w1 + w2) := by
  induction h1 with
  | nil u => simpa using h2
  | cons he _ ih =>
    rw [add_assoc]
    exact PathW.cons he (ih h2)

theorem PathW.snoc {g : Graph} {a b c : Nat} {w1 w2 : ℚ}
    (h1 : PathW g a b w1) (he : hasEdgeW g b c w2) : PathW g a c (w1 + w2) :=
  h1.append (by simpa using PathW.cons he (PathW.nil c))

/-- Graphs with identical edge lists at every node have the same paths. -/
theorem PathW_congr_edges {g g' : Graph}
    (h : ∀ u, (g'.getNode u).edges = (g.getNode u).edges)
    {s t : Nat} {w : ℚ} : PathW g' s t w ↔ PathW g s t w := by
  constructor
  · exact PathW.mono (fun u v ww => by rw [hasEdgeW, hasEdgeW, h u]; exact id)
  · exact PathW.mono (fun u v ww => by rw [hasEdgeW, hasEdgeW, h u]; exact id)

theorem hasEdgeW_add_edge {g : Graph} {s t : Nat} {w0 : ℚ} {u v : Nat} {w : ℚ}
    (h : hasEdgeW g u v w) : hasEdgeW (g.add_edge s t w0) u v w := by
  obtain ⟨e, he, ht, hw⟩ := h
  by_cases hu : u = s
  · subst hu
    by_cases hc : (g.contains u && g.contains t) = true
    · refine ⟨e, ?_, ht, hw⟩
      rw [getNode_add_edge_self g u t w0 hc]
      exact List.mem_append_left _ he
    · rw [add_edge_not_contains g u t w0 (by simpa using hc)]
      exact ⟨e, he, ht, hw⟩
  · refine ⟨e, ?_, ht, hw⟩
    rw [getNode_add_edge_ne g s t w0 u hu]
    exact he

theorem hasEdgeW_add_edge_elim {g : Graph} {s t : Nat} {w0 : ℚ} {u v : Nat}
    {w : ℚ} (h : hasEdgeW (g.add_edge s t w0) u v w) :
    hasEdgeW g u v w ∨ (u = s ∧ v = t ∧ w = w0) := by
  obtain ⟨e, he, ht, hw⟩ := h
  by_cases hu : u = s
  · subst hu
    by_cases hc : (g.contains u && g.contains t) = true
    · rw [getNode_add_edge_self g u t w0 hc] at he
      rcases List.mem_append.mp he with h1 | h1
      · exact Or.inl ⟨e, h1, ht, hw⟩
      · right
        simp only [List.mem_singleton] at h1
        subst h1
        exact ⟨rfl, ht.symm, hw.symm⟩
    · rw [add_edge_not_contains g u t w0 (by simpa using hc)] at he
      exact Or.inl ⟨e, he, ht, hw⟩
  · rw [getNode_add_edge_ne g s t w0 u hu] at he
    exact Or.inl ⟨e, he, ht, hw⟩

/-- Adding an edge whose weight is realized by an existing path does not
change the path-weight relation. -/
theorem PathW_add_edge_justified {g : Graph} {s0 t0 : Nat} {w0 : ℚ}
    (hjust : PathW g s0 t0 w0) {s t : Nat} {w : ℚ} :
    PathW (g.add_edge s0 t0 w0) s t w ↔ PathW g s t w := by
  constructor
  · intro hp
    induction hp with
    | nil u => exact PathW.nil u
    | cons he _ ih =>
      rcases hasEdgeW_add_edge_elim he with h1 | ⟨hu, hv, hw⟩
      · exact PathW.cons h1 ih
      · subst hu; subst hv; subst hw
        exact hjust.append ih
  · exact PathW.mono (fun u v ww h => hasEdgeW_add_edge h)

theorem findEdgeWeight_hasEdgeW {g : Graph} {u v : Nat} {w : ℚ}
    (h : findEdgeWeight g u v = some w) : hasEdgeW g u v w := by
  unfold findEdgeWeight at h
  cases hf : (g.getNode u).edges.find? (fun e => e.target = v) with
  | none => rw [hf] at h; simp at h
  | some e =>
    rw [hf] at h
    simp only [Option.map, Option.some.injEq] at h
    have hmem := List.mem_of_find?_eq_some hf
    have hp := List.find?_some hf
    simp only [decide_eq_true_eq] at hp
    exact ⟨e, hmem, hp, h⟩

/-- A two-edge path `x -> nid -> y` realizes the candidate shortcut weight. -/
theorem pathThrough_justified {g : Graph} {x nid y : Nat} {a b : ℚ}
    (h1 : findEdgeWeight g x nid = some a) (h2 : findEdgeWeight g nid y = some b) :
    PathW g x y (a + b) :=
  PathW.cons (findEdgeWeight_hasEdgeW h1)
    (by simpa using PathW.cons (findEdgeWeight_hasEdgeW h2) (PathW.nil y))

theorem optAdd_justified {g : Graph} {x nid y : Nat} :
    ∀ w, optAdd (findEdgeWeight g x nid) (findEdgeWeight g nid y) = some w →
      PathW g x y w := by
  intro w h
  cases hp1 : findEdgeWeight g x nid with
  | none => rw [hp1] at h; simp [optAdd] at h
  | some a =>
    cases hp2 : findEdgeWeight g nid y with
    | none => rw [hp1, hp2] at h; simp [optAdd] at h
    | some b =>
      rw [hp1, hp2] at h
      simp only [optAdd, Option.some.injEq] at h
      rw [← h]
      exact pathThrough_justified hp1 hp2

theorem shortcutStep_paths {x y : Nat} {pt existing : Option ℚ}
    {st : Graph × Nat} (hjust : ∀ w, pt = some w → PathW st.1 x y w) :
    ∀ s t w, PathW (shortcutStep x y pt existing st).1 s t w ↔ PathW st.1 s t w := by
  intro s t w
  cases hp : pt with
  | none => simp [shortcutStep, hp]
  | some ww =>
    simp only [shortcutStep, hp]
    by_cases hc : (existing.isNone || ltInf ww existing) = true
    · simp only [hc, if_true]
      exact PathW_add_edge_justified (hjust ww hp)
    · simp [hc]

theorem shortcutStep_edges_mono {x y : Nat} {pt existing : Option ℚ}
    {st : Graph × Nat} {u v : Nat} {w : ℚ} (h : hasEdgeW st.1 u v w) :
    hasEdgeW (shortcutStep x y pt existing st).1 u v w := by
  cases hp : pt with
  | none => simpa [shortcutStep, hp] using h
  | some ww =>
    simp only [shortcutStep, hp]
    by_cases hc : (existing.isNone || ltInf ww existing) = true
    · simp only [hc, if_true]
      exact hasEdgeW_add_edge h
    · simpa [hc] using h

/-- One pair step of `contract_node` preserves the path-weight relation:
each inserted shortcut weight is the sum of two edges present at the
moment of insertion. -/
theorem contractPair_paths (nid : Nat) (st : Graph × Nat) (p : Nat × Nat) :
    ∀ s t w, PathW (contractPair nid st p).1 s t w ↔ PathW st.1 s t w := by
  intro s t w
  have hmid : ∀ s1 t1 w1,
      PathW (shortcutStep p.1 p.2 (optAdd (findEdgeWeight st.1 p.1 nid)
        (findEdgeWeight st.1 nid p.2)) (findEdgeWeight st.1 p.1 p.2) st).1 s1 t1 w1 ↔
      PathW st.1 s1 t1 w1 :=
    fun s1 t1 w1 => shortcutStep_paths optAdd_justified s1 t1 w1
  have houter : ∀ s1 t1 w1,
      PathW (shortcutStep p.2 p.1 (optAdd (findEdgeWeight st.1 p.2 nid)
        (findEdgeWeight st.1 nid p.1)) (findEdgeWeight st.1 p.2 p.1)
        (shortcutStep p.1 p.2 (optAdd (findEdgeWeight st.1 p.1 nid)
          (findEdgeWeight st.1 nid p.2)) (findEdgeWeight st.1 p.1 p.2) st)).1 s1 t1 w1 ↔
      PathW (shortcutStep p.1 p.2 (optAdd (findEdgeWeight st.1 p.1 nid)
        (findEdgeWeight st.1 nid p.2)) (findEdgeWeight st.1 p.1 p.2) st).1 s1 t1 w1 :=
    fun s1 t1 w1 => shortcutStep_paths
      (fun ww hww => PathW.mono (fun a b wc hc => shortcutStep_edges_mono hc)
        (optAdd_justified ww hww)) s1 t1 w1
  exact (houter s t w).trans (hmid s t w)

/-- Edges are untouched by a `setNode` that keeps the edge list. -/
theorem edges_setNode_preserve (g : Graph) (i : Nat) (n : Node)
    (h : n.edges = (g.getNode i).edges) :
    ∀ u, ((g.setNode i n).getNode u).edges = (g.getNode u).edges := by
  intro u
  by_cases hu : u = i
  · subst hu
    cases hc : g.contains u with
    | true => rw [getNode_setNode_self g u n hc, h]
    | false => rw [getNode_setNode_absent g u n hc]
  · rw [getNode_setNode_other g i n u hu]

theorem contractFold_paths (nid : Nat) (pairs : List (Nat × Nat)) :
    ∀ st : Graph × Nat, ∀ s t w,
      PathW (pairs.foldl (contractPair nid) st).1 s t w ↔ PathW st.1 s t w := by
  induction pairs with
  | nil => intro st s t w; exact Iff.rfl
  | cons p rest ih =>
    intro st s t w
    rw [List.foldl_cons, ih (contractPair nid st p) s t w,
      contractPair_paths nid st p s t w]

theorem paths_setNode_keep_edges (g : Graph) (i : Nat) (n : Node)
    (h : n.edges = (g.getNode i).edges) (s t : Nat) (w : ℚ) :
    PathW (g.setNode i n) s t w ↔ PathW g s t w :=
  PathW_congr_edges (edges_setNode_preserve g i n h)

/-- `contract_node` preserves the path-weight relation of the graph, hence
every shortest-path distance and every no-path verdict. -/
theorem contract_node_paths (g : Graph) (nid : Nat) :
    ∀ s t w, PathW (contract_node g nid).1 s t w ↔ PathW g s t w := by
  intro s t w
  simp only [contract_node]
  refine Iff.trans (paths_setNode_keep_edges _ nid _ ?_ s t w) ?_
  · rfl
  · exact contractFold_paths nid _ (g, 0) s t w

theorem markContracted_paths (g : Graph) (nid : Nat) (ord : Nat) :
    ∀ s t w, PathW (markContracted g nid ord) s t w ↔ PathW g s t w := by
  intro s t w
  simp only [markContracted]
  exact paths_setNode_keep_edges g nid _ (by rfl) s t w

theorem contractionSequence_paths (steps : List (Nat × Nat)) :
    ∀ g s t w, PathW (contractionSequence g steps) s t w ↔ PathW g s t w := by
  induction steps with
  | nil => intro g s t w; exact Iff.rfl
  | cons step rest ih =>
    intro g s t w
    rw [contractionSequence, ih, markContracted_paths, contract_node_paths]

theorem buildLoop_paths (fuel : Nat) :
    ∀ (g : Graph) (ord : Nat) (remaining acc : List Nat) (s t : Nat) (w : ℚ),
      PathW (buildLoop fuel g ord remaining acc).1 s t w ↔ PathW g s t w := by
  induction fuel with
  | zero => intro g ord remaining acc s t w; exact Iff.rfl
  | succ n ih =>
    intro g ord remaining acc s t w
    rw [buildLoop]
    cases hsel : selectMin g remaining with
    | none => exact Iff.rfl
    | some nid =>
      rw [ih, markContracted_paths, contract_node_paths]

/-! ### Field-preservation lemmas for the mutation steps. -/

theorem field_setNode_preserve {α : Type} (f : Node → α) (g : Graph) (i : Nat)
    (n : Node) (h : f n = f (g.getNode i)) :
    ∀ u, f ((g.setNode i n).getNode u) = f (g.getNode u) := by
  intro u
  by_cases hu : u = i
  · subst hu
    cases hc : g.contains u with
    | true => rw [getNode_setNode_self g u n hc, h]
    | false => rw [getNode_setNode_absent g u n hc]
  · rw [getNode_setNode_other g i n u hu]

theorem keys_shortcutStep (x y : Nat) (pt existing : Option ℚ) (st : Graph × Nat) :
    (shortcutStep x y pt existing st).1.nodes.map Prod.fst =
      st.1.nodes.map Prod.fst := by
  cases pt with
  | none => rfl
  | some w =>
    simp only [shortcutStep]
    by_cases hc : (existing.isNone || ltInf w existing) = true
    · simp only [hc, if_true]
      exact keys_add_edge _ _ _ _
    · simp [hc]

theorem order_shortcutStep (x y : Nat) (pt existing : Option ℚ) (st : Graph × Nat)
    (u : Nat) : ((shortcutStep x y pt existing st).1.getNode u).contraction_order =
      (st.1.getNode u).contraction_order := by
  cases pt with
  | none => rfl
  | some w =>
    simp only [shortcutStep]
    by_cases hc : (existing.isNone || ltInf w existing) = true
    · simp only [hc, if_true]
      exact order_add_edge _ _ _ _ _
    · simp [hc]

theorem keys_contractPair (nid : Nat) (st : Graph × Nat) (p : Nat × Nat) :
    (contractPair nid st p).1.nodes.map Prod.fst = st.1.nodes.map Prod.fst := by
  show (shortcutStep _ _ _ _ (shortcutStep _ _ _ _ st)).1.nodes.map Prod.fst = _
  rw [keys_shortcutStep, keys_shortcutStep]

theorem order_contractPair (nid : Nat) (st : Graph × Nat) (p : Nat × Nat) (u : Nat) :
    ((contractPair nid st p).1.getNode u).contraction_order =
      (st.1.getNode u).contraction_order := by
  show ((shortcutStep _ _ _ _ (shortcutStep _ _ _ _ st)).1.getNode u).contraction_order = _
  rw [order_shortcutStep, order_shortcutStep]

theorem keys_contractFold (nid : Nat) (pairs : List (Nat × Nat)) :
    ∀ st : Graph × Nat, (pairs.foldl (contractPair nid) st).1.nodes.map Prod.fst =
      st.1.nodes.map Prod.fst := by
  induction pairs with
  | nil => intro st; rfl
  | cons p rest ih =>
    intro st
    rw [List.foldl_cons, ih (contractPair nid st p), keys_contractPair]

theorem order_contractFold (nid : Nat) (pairs : List (Nat × Nat)) :
    ∀ st : Graph × Nat, ∀ u,
      ((pairs.foldl (contractPair nid) st).1.getNode u).contraction_order =
        (st.1.getNode u).contraction_order := by
  induction pairs with
  | nil => intro st u; rfl
  | cons p rest ih =>
    intro st u
    rw [List.foldl_cons, ih (contractPair nid st p), order_contractPair]

theorem keys_contract_node (g : Graph) (nid : Nat) :
    (contract_node g nid).1.nodes.map Prod.fst = g.nodes.map Prod.fst := by
  simp only [contract_node]
  rw [keys_setNode]
  exact keys_contractFold nid _ (g, 0)

theorem order_contract_node (g : Graph) (nid : Nat) (u : Nat) :
    ((contract_node g nid).1.getNode u).contraction_order =
      (g.getNode u).contraction_order := by
  simp only [contract_node]
  refine Eq.trans (field_setNode_preserve Node.contraction_order _ nid _ ?_ u) ?_
  · rfl
  · exact order_contractFold nid _ (g, 0) u

theorem keys_markContracted (g : Graph) (nid : Nat) (ord : Nat) :
    (markContracted g nid ord).nodes.map Prod.fst = g.nodes.map Prod.fst :=
  keys_setNode g nid _

theorem order_markContracted_self (g : Graph) (nid : Nat) (ord : Nat)
    (h : g.contains nid = true) :
    ((markContracted g nid ord).getNode nid).contraction_order = (ord : Int) := by
  simp only [markContracted]
  rw [getNode_setNode_self g nid _ h]

theorem order_markContracted_other (g : Graph) (nid : Nat) (ord : Nat) (u : Nat)
    (h : u ≠ nid) :
    ((markContracted g nid ord).getNode u).contraction_order =
      (g.getNode u).contraction_order := by
  simp only [markContracted]
  rw [getNode_setNode_other g nid _ u h]

theorem contains_contract_node (g : Graph) (nid : Nat) (u : Nat) :
    (contract_node g nid).1.contains u = g.contains u :=
  contains_congr_keys (keys_contract_node g nid) u

theorem contains_markContracted (g : Graph) (nid : Nat) (ord : Nat) (u : Nat) :
    (markContracted g nid ord).contains u = g.contains u :=
  contains_congr_keys (keys_markContracted g nid ord) u

theorem keys_buildLoop (fuel : Nat) :
    ∀ (g : Graph) (ord : Nat) (remaining acc : List Nat),
      (buildLoop fuel g ord remaining acc).1.nodes.map Prod.fst =
        g.nodes.map Prod.fst := by
  induction fuel with
  | zero => intro g ord remaining acc; rfl
  | succ n ih =>
    intro g ord remaining acc
    rw [buildLoop]
    cases hsel : selectMin g remaining with
    | none => rfl
    | some nid =>
      rw [ih, keys_markContracted, keys_contract_node]

/-! ### Rank assignment of the contraction loop. -/

theorem contains_of_mem_keys {g : Graph} {v : Nat}
    (h : v ∈ g.nodes.map Prod.fst) : g.contains v = true := by
  have aux : ∀ l : List (Nat × Node), v ∈ l.map Prod.fst →
      (findNode? l v).isSome = true := by
    intro l
    induction l with
    | nil => intro h1; simp at h1
    | cons p rest ih =>
      intro h1
      simp only [List.map_cons, List.mem_cons] at h1
      simp only [findNode?]
      by_cases hp : p.1 = v
      · simp [hp]
      · rcases h1 with h1 | h1
        · exact absurd h1.symm hp
        · simp [hp, ih h1]
  exact aux g.nodes h

/-- The contraction loop performs one iteration per remaining vertex and
assigns them the consecutive ranks `ord, ord+1, ...`; vertices outside
`remaining` keep their rank.  `fuel` only needs to cover `remaining`. -/
theorem buildLoop_ranks (fuel : Nat) :
    ∀ (g : Graph) (ord : Nat) (remaining acc : List Nat),
    remaining.length ≤ fuel →
    remaining.Nodup → (∀ v ∈ remaining, g.contains v = true) →
    ((buildLoop fuel g ord remaining acc).2.length =
      acc.length + remaining.length) ∧
    ((remaining.map
        (fun v => ((buildLoop fuel g ord remaining acc).1.getNode v).contraction_order)).Perm
      ((List.range remaining.length).map (fun i => ((ord + i : Nat) : Int)))) ∧
    (∀ v, v ∉ remaining →
      ((buildLoop fuel g ord remaining acc).1.getNode v).contraction_order =
        (g.getNode v).contraction_order) := by
  induction fuel with
  | zero =>
    intro g ord remaining acc hfuel hnd hsub
    have hrem : remaining = [] := List.length_eq_zero.mp (Nat.le_zero.mp hfuel)
    subst hrem
    exact ⟨by simp [buildLoop], by simp [buildLoop], fun v hv => rfl⟩
  | succ n ih =>
    intro g ord remaining acc hfuel hnd hsub
    rw [buildLoop]
    cases hsel : selectMin g remaining with
    | none =>
      have hrem : remaining = [] := by
        cases remaining with
        | nil => rfl
        | cons a rest => simp [selectMin] at hsel
      subst hrem
      exact ⟨by simp, by simp, fun v hv => rfl⟩
    | some nid =>
      have hmem : nid ∈ remaining := selectMin_mem g remaining nid hsel
      have herase_len : (remaining.erase nid).length + 1 = remaining.length :=
        List.length_erase_add_one hmem
      have hfuel' : (remaining.erase nid).length ≤ n := by omega
      have hnd' : (remaining.erase nid).Nodup := hnd.erase nid
      have hcont : ∀ v,
          (markContracted (contract_node g nid).1 nid ord).contains v =
            g.contains v := by
        intro v
        rw [contains_markContracted, contains_contract_node]
      have hsub' : ∀ v ∈ remaining.erase nid,
          (markContracted (contract_node g nid).1 nid ord).contains v = true := by
        intro v hv
        rw [hcont v]
        exact hsub v (List.mem_of_mem_erase hv)
      obtain ⟨ihlen, ihperm, ihout⟩ := ih _ (ord + 1) (remaining.erase nid)
        (acc ++ [nid]) hfuel' hnd' hsub'
      have hnotmem : nid ∉ remaining.erase nid := hnd.not_mem_erase
      have hord_nid :
          ((buildLoop n (markContracted (contract_node g nid).1 nid ord) (ord + 1)
            (remaining.erase nid) (acc ++ [nid])).1.getNode
              nid).contraction_order = (ord : Int) := by
        rw [ihout nid hnotmem]
        refine order_markContracted_self _ nid ord ?_
        rw [contains_contract_node]
        exact hsub nid hmem
      refine ⟨?_, ?_, ?_⟩
      · rw [ihlen]
        simp only [List.length_append, List.length_singleton]
        omega
      · have hperm1 : remaining.Perm (nid :: remaining.erase nid) :=
          List.perm_cons_erase hmem
        refine (hperm1.map _).trans ?_
        rw [List.map_cons, hord_nid]
        have hr : remaining.length = (remaining.erase nid).length + 1 :=
          herase_len.symm
        rw [hr, List.range_succ_eq_map, List.map_cons]
        simp only [Nat.add_zero, Nat.cast_ofNat]
        refine List.Perm.cons _ ?_
        refine ihperm.trans ?_
        rw [List.map_map]
        refine List.Perm.of_eq (List.map_congr_left ?_)
        intro i hi
        simp only [Function.comp_apply]
        congr 1
        omega
      · intro v hv
        have hv1 : v ∉ remaining.erase nid := fun h => hv (List.mem_of_mem_erase h)
        have hvne : v ≠ nid := fun h => hv (h ▸ hmem)
        rw [ihout v hv1]
        rw [order_markContracted_other _ nid ord v hvne, order_contract_node]

/-! ### Additivity of the mutation steps (frame conditions). -/

theorem edgesExtend_refl (g : Graph) (u : Nat) : edgesExtend g g u :=
  ⟨[], by simp⟩

theorem edgesExtend_trans {g1 g2 g3 : Graph} {u : Nat}
    (h1 : edgesExtend g1 g2 u) (h2 : edgesExtend g2 g3 u) : edgesExtend g1 g3 u := by
  obtain ⟨r1, hr1⟩ := h1
  obtain ⟨r2, hr2⟩ := h2
  exact ⟨r1 ++ r2, by rw [hr2, hr1, List.append_assoc]⟩

theorem edgesExtend_add_edge (g : Graph) (s t : Nat) (w : ℚ) (u : Nat) :
    edgesExtend g (g.add_edge s t w) u :=
  edges_add_edge_append g s t w u

theorem edgesExtend_shortcutStep (x y : Nat) (pt existing : Option ℚ)
    (st : Graph × Nat) (u : Nat) : edgesExtend st.1 (shortcutStep x y pt existing st).1 u := by
  cases pt with
  | none => exact edgesExtend_refl _ u
  | some w =>
    simp only [shortcutStep]
    by_cases hc : (existing.isNone || ltInf w existing) = true
    · simp only [hc, if_true]
      exact edgesExtend_add_edge _ _ _ _ u
    · simp only [hc]
      exact edgesExtend_refl _ u

theorem edgesExtend_contractPair (nid : Nat) (st : Graph × Nat) (p : Nat × Nat)
    (u : Nat) : edgesExtend st.1 (contractPair nid st p).1 u := by
  have h1 : edgesExtend st.1 (shortcutStep p.1 p.2
      (optAdd (findEdgeWeight st.1 p.1 nid) (findEdgeWeight st.1 nid p.2))
      (findEdgeWeight st.1 p.1 p.2) st).1 u :=
    edgesExtend_shortcutStep _ _ _ _ st u
  exact edgesExtend_trans h1 (edgesExtend_shortcutStep _ _ _ _ _ u)

theorem edgesExtend_contractFold (nid : Nat) (pairs : List (Nat × Nat)) :
    ∀ st : Graph × Nat, ∀ u, edgesExtend st.1 (pairs.foldl (contractPair nid) st).1 u := by
  induction pairs with
  | nil => intro st u; exact edgesExtend_refl _ u
  | cons p rest ih =>
    intro st u
    rw [List.foldl_cons]
    exact edgesExtend_trans (edgesExtend_contractPair nid st p u)
      (ih (contractPair nid st p) u)

theorem edges_setNode_keep (g : Graph) (i : Nat) (n : Node)
    (h : n.edges = (g.getNode i).edges) (u : Nat) :
    ((g.setNode i n).getNode u).edges = (g.getNode u).edges :=
  edges_setNode_preserve g i n h u

theorem edgesExtend_contract_node (g : Graph) (nid : Nat) (u : Nat) :
    edgesExtend g (contract_node g nid).1 u := by
  have h1 := edgesExtend_contractFold nid (orderedPairs ((((g.getNode nid).edges.filter
      (fun e => (g.getNode e.target).contraction_order = -1)).map Edge.target))) (g, 0) u
  simp only [contract_node]
  obtain ⟨r, hr⟩ := h1
  refine ⟨r, ?_⟩
  rw [edges_setNode_keep _ nid _ (by rfl) u]
  exact hr

theorem edgesExtend_markContracted (g : Graph) (nid : Nat) (ord : Nat) (u : Nat) :
    edgesExtend g (markContracted g nid ord) u := by
  refine ⟨[], ?_⟩
  simp only [markContracted]
  rw [edges_setNode_keep _ nid _ (by rfl) u]
  simp

theorem edgesExtend_buildLoop (fuel : Nat) :
    ∀ (g : Graph) (ord : Nat) (remaining acc : List Nat) (u : Nat),
      edgesExtend g (buildLoop fuel g ord remaining acc).1 u := by
  induction fuel with
  | zero => intro g ord remaining acc u; exact edgesExtend_refl g u
  | succ n ih =>
    intro g ord remaining acc u
    rw [buildLoop]
    cases hsel : selectMin g remaining with
    | none => exact edgesExtend_refl g u
    | some nid =>
      exact edgesExtend_trans (edgesExtend_trans (edgesExtend_contract_node g nid u)
        (edgesExtend_markContracted (contract_node g nid).1 nid ord u))
        (ih _ _ _ _ u)

theorem meta_setNode_keep (g : Graph) (i : Nat) (n : Node)
    (h : nodeMeta n = nodeMeta (g.getNode i)) (u : Nat) :
    nodeMeta ((g.setNode i n).getNode u) = nodeMeta (g.getNode u) :=
  field_setNode_preserve nodeMeta g i n h u

theorem meta_add_edge_keep (g : Graph) (s t : Nat) (w : ℚ) (u : Nat) :
    nodeMeta ((g.add_edge s t w).getNode u) = nodeMeta (g.getNode u) := by
  obtain ⟨h1, h2, h3⟩ := meta_add_edge g s t w u
  simp [nodeMeta, h1, h2, h3]

theorem meta_shortcutStep (x y : Nat) (pt existing : Option ℚ) (st : Graph × Nat)
    (u : Nat) : nodeMeta ((shortcutStep x y pt existing st).1.getNode u) =
      nodeMeta (st.1.getNode u) := by
  cases pt with
  | none => rfl
  | some w =>
    simp only [shortcutStep]
    by_cases hc : (existing.isNone || ltInf w existing) = true
    · simp only [hc, if_true]
      exact meta_add_edge_keep _ _ _ _ u
    · simp [hc]

theorem meta_contractPair (nid : Nat) (st : Graph × Nat) (p : Nat × Nat) (u : Nat) :
    nodeMeta ((contractPair nid st p).1.getNode u) = nodeMeta (st.1.getNode u) := by
  show nodeMeta ((shortcutStep _ _ _ _ (shortcutStep _ _ _ _ st)).1.getNode u) = _
  rw [meta_shortcutStep, meta_shortcutStep]

theorem meta_contractFold (nid : Nat) (pairs : List (Nat × Nat)) :
    ∀ st : Graph × Nat, ∀ u,
      nodeMeta ((pairs.foldl (contractPair nid) st).1.getNode u) =
        nodeMeta (st.1.getNode u) := by
  induction pairs with
  | nil => intro st u; rfl
  | cons p rest ih =>
    intro st u
    rw [List.foldl_cons, ih (contractPair nid st p), meta_contractPair]

theorem meta_contract_node (g : Graph) (nid : Nat) (u : Nat) :
    nodeMeta ((contract_node g nid).1.getNode u) = nodeMeta (g.getNode u) := by
  simp only [contract_node]
  refine Eq.trans (meta_setNode_keep _ nid _ ?_ u) ?_
  · rfl
  · exact meta_contractFold nid _ (g, 0) u

theorem meta_markContracted (g : Graph) (nid : Nat) (ord : Nat) (u : Nat) :
    nodeMeta ((markContracted g nid ord).getNode u) = nodeMeta (g.getNode u) := by
  simp only [markContracted]
  exact meta_setNode_keep g nid _ (by rfl) u

theorem meta_buildLoop (fuel : Nat) :
    ∀ (g : Graph) (ord : Nat) (remaining acc : List Nat) (u : Nat),
      nodeMeta ((buildLoop fuel g ord remaining acc).1.getNode u) =
        nodeMeta (g.getNode u) := by
  induction fuel with
  | zero => intro g ord remaining acc u; rfl
  | succ n ih =>
    intro g ord remaining acc u
    rw [buildLoop]
    cases hsel : selectMin g remaining with
    | none => rfl
    | some nid =>
      rw [ih]
      rw [meta_markContracted, meta_contract_node]

/-! ### The node-copy loops that seed the derived graphs. -/

theorem findNode?_append (l1 l2 : List (Nat × Node)) (v : Nat) :
    findNode? (l1 ++ l2) v = (findNode? l1 v).or (findNode? l2 v) := by
  induction l1 with
  | nil => simp [findNode?]
  | cons p rest ih =>
    simp only [List.cons_append, findNode?]
    by_cases hp : p.1 = v <;> simp [hp, ih]

theorem getNode_add_node (g : Graph) (i : Nat) (la lo : ℚ) (u : Nat) :
    (g.add_node i la lo).getNode u =
      if g.contains u = false ∧ u = i then mkNode i la lo else g.getNode u := by
  unfold Graph.add_node
  by_cases hci : g.contains i = true
  · rw [if_pos hci]
    by_cases h : g.contains u = false ∧ u = i
    · exfalso
      rcases h with ⟨h1, h2⟩
      rw [h2, hci] at h1
      exact absurd h1 (by simp)
    · rw [if_neg h]
  · rw [if_neg hci]
    show Graph.getNode _ u = _
    simp only [Graph.getNode, Graph.find?]
    rw [findNode?_append]
    cases hfu : findNode? g.nodes u with
    | some n =>
      have hcu : ¬ (g.contains u = false) := by
        simp [Graph.contains, Graph.find?, hfu]
      rw [if_neg (fun h => hcu h.1)]
      simp [Option.or, hfu]
    | none =>
      have hcu : g.contains u = false := by
        simp [Graph.contains, Graph.find?, hfu]
      by_cases hu : u = i
      · subst hu
        rw [if_pos ⟨hcu, rfl⟩]
        simp [Option.or, findNode?]
      · rw [if_neg (fun h => hu h.2)]
        have hne : ¬ (i = u) := fun h => hu h.symm
        simp [Option.or, findNode?, hne, hfu]

theorem contains_add_node (g : Graph) (i : Nat) (la lo : ℚ) (u : Nat) :
    ((g.add_node i la lo).contains u = true) ↔
      (g.contains u = true ∨ u = i) := by
  unfold Graph.add_node
  by_cases hci : g.contains i = true
  · rw [if_pos hci]
    constructor
    · exact Or.inl
    · rintro (h | h)
      · exact h
      · rw [h]; exact hci
  · rw [if_neg hci]
    show (Graph.contains _ u = true) ↔ _
    simp only [Graph.contains, Graph.find?]
    rw [findNode?_append]
    cases hfu : findNode? g.nodes u with
    | some n =>
      have hcu : g.contains u = true := by simp [Graph.contains, Graph.find?, hfu]
      simp [Option.or, hcu]
    | none =>
      have hcu : ¬ (g.contains u = true) := by
        simp [Graph.contains, Graph.find?, hfu]
      by_cases hu : u = i
      · subst hu
        simp [Option.or, findNode?, hcu]
      · have hne : ¬ (i = u) := fun h => hu h.symm
        simp [Option.or, findNode?, hne, hcu, hu]

/-- The node-copy loop that seeds each derived graph: all copied nodes have
empty edge lists. -/
theorem edges_nodeCopy (l : List (Nat × Node)) :
    ∀ g0 : Graph, (∀ u, (g0.getNode u).edges = []) →
      ∀ u, ((l.foldl (fun (h : Graph) p => h.add_node p.1 p.2.lat p.2.lon)
        g0).getNode u).edges = [] := by
  induction l with
  | nil => intro g0 h0 u; exact h0 u
  | cons p rest ih =>
    intro g0 h0 u
    rw [List.foldl_cons]
    refine ih _ ?_ u
    intro v
    rw [getNode_add_node]
    split_ifs
    · rfl
    · exact h0 v

theorem contains_nodeCopy (l : List (Nat × Node)) :
    ∀ g0 : Graph, ∀ u,
      (((l.foldl (fun (h : Graph) p => h.add_node p.1 p.2.lat p.2.lon)
        g0).contains u) = true) ↔ (g0.contains u = true ∨ u ∈ l.map Prod.fst) := by
  induction l with
  | nil => intro g0 u; simp
  | cons p rest ih =>
    intro g0 u
    rw [List.foldl_cons, ih, contains_add_node]
    simp only [List.map_cons, List.mem_cons]
    tauto

theorem mem_keys_of_contains {g : Graph} {v : Nat} (h : g.contains v = true) :
    v ∈ g.nodes.map Prod.fst := by
  have aux : ∀ l : List (Nat × Node), (findNode? l v).isSome = true →
      v ∈ l.map Prod.fst := by
    intro l
    induction l with
    | nil => intro h1; simp [findNode?] at h1
    | cons p rest ih =>
      intro h1
      simp only [findNode?] at h1
      by_cases hp : p.1 = v
      · simp [List.map_cons, hp]
      · simp only [hp, if_false] at h1
        simp [List.map_cons, ih h1]
  exact aux g.nodes h

theorem contains_partitionEdges (g : Graph) (updown : Graph × Graph) (u : Nat) :
    ((partitionEdges g updown).1.contains u = updown.1.contains u) ∧
    ((partitionEdges g updown).2.contains u = updown.2.contains u) := by
  unfold partitionEdges
  refine foldl_inv (fun ud : Graph × Graph =>
    (ud.1.contains u = updown.1.contains u) ∧
    (ud.2.contains u = updown.2.contains u)) _ _ _ ⟨rfl, rfl⟩ ?_
  intro acc p hp hinv
  refine foldl_inv (fun ud : Graph × Graph =>
    (ud.1.contains u = updown.1.contains u) ∧
    (ud.2.contains u = updown.2.contains u)) _ _ _ hinv ?_
  intro acc2 e he hinv2
  split_ifs
  · exact ⟨(contains_add_edge _ _ _ _ _).trans hinv2.1, hinv2.2⟩
  · exact ⟨hinv2.1, (contains_add_edge _ _ _ _ _).trans hinv2.2⟩

/-! ### Characterizing the upward/downward edge partition. -/

theorem getNode_of_mem_nodup {g : Graph} (hnd : (g.nodes.map Prod.fst).Nodup)
    {k : Nat} {n : Node} (hmem : (k, n) ∈ g.nodes) : g.getNode k = n := by
  have aux : ∀ l : List (Nat × Node), (l.map Prod.fst).Nodup → (k, n) ∈ l →
      findNode? l k = some n := by
    intro l
    induction l with
    | nil => intro _ h; simp at h
    | cons p rest ih =>
      intro hnd1 hm
      rcases List.mem_cons.mp hm with h | h
      · rw [← h]
        simp [findNode?]
      · simp only [List.map_cons, List.nodup_cons] at hnd1
        by_cases hp : p.1 = k
        · exfalso
          refine hnd1.1 ?_
          rw [hp]
          exact List.mem_map_of_mem Prod.fst h
        · simp only [findNode?, hp, if_false]
          exact ih hnd1.2 h
  have := aux g.nodes hnd hmem
  simp [Graph.getNode, Graph.find?, this]

/-- Master invariant of `build`'s final classification loop: every upward
edge is an edge of the augmented graph directed strictly up the final
rank order, and every stored downward edge is the reversal of an augmented
edge, directed weakly up the rank order with its stored target a present
vertex (it is the source node of the classified original edge). -/
theorem partitionEdges_edges (g' : Graph) (hnd : (g'.nodes.map Prod.fst).Nodup)
    (updown : Graph × Graph)
    (hu0 : ∀ u v w, hasEdgeW updown.1 u v w → hasEdgeW g' u v w ∧
      (g'.getNode u).contraction_order < (g'.getNode v).contraction_order)
    (hd0 : ∀ u v w, hasEdgeW updown.2 u v w → hasEdgeW g' v u w ∧
      (g'.getNode u).contraction_order ≤ (g'.getNode v).contraction_order ∧
      g'.contains v = true) :
    (∀ u v w, hasEdgeW (partitionEdges g' updown).1 u v w → hasEdgeW g' u v w ∧
      (g'.getNode u).contraction_order < (g'.getNode v).contraction_order) ∧
    (∀ u v w, hasEdgeW (partitionEdges g' updown).2 u v w → hasEdgeW g' v u w ∧
      (g'.getNode u).contraction_order ≤ (g'.getNode v).contraction_order ∧
      g'.contains v = true) := by
  unfold partitionEdges
  refine foldl_inv (fun ud : Graph × Graph =>
    (∀ u v w, hasEdgeW ud.1 u v w → hasEdgeW g' u v w ∧
      (g'.getNode u).contraction_order < (g'.getNode v).contraction_order) ∧
    (∀ u v w, hasEdgeW ud.2 u v w → hasEdgeW g' v u w ∧
      (g'.getNode u).contraction_order ≤ (g'.getNode v).contraction_order ∧
      g'.contains v = true))
    _ _ _ ⟨hu0, hd0⟩ ?_
  intro acc p hp hinv
  have hgp : g'.getNode p.1 = p.2 := getNode_of_mem_nodup hnd (by
    cases p
    exact hp)
  have hpc : g'.contains p.1 = true :=
    contains_of_mem_keys (List.mem_map_of_mem Prod.fst hp)
  refine foldl_inv (fun ud : Graph × Graph =>
    (∀ u v w, hasEdgeW ud.1 u v w → hasEdgeW g' u v w ∧
      (g'.getNode u).contraction_order < (g'.getNode v).contraction_order) ∧
    (∀ u v w, hasEdgeW ud.2 u v w → hasEdgeW g' v u w ∧
      (g'.getNode u).contraction_order ≤ (g'.getNode v).contraction_order ∧
      g'.contains v = true))
    _ _ _ hinv ?_
  intro acc2 e he hinv2
  have hedge : hasEdgeW g' p.1 e.target e.weight := by
    rw [hasEdgeW, hgp]
    exact ⟨e, he, rfl, rfl⟩
  by_cases hcond :
      p.2.contraction_order < (g'.getNode e.target).contraction_order
  · rw [if_pos hcond]
    refine ⟨?_, hinv2.2⟩
    intro u v w h
    rcases hasEdgeW_add_edge_elim h with h1 | ⟨h1, h2, h3⟩
    · exact hinv2.1 u v w h1
    · subst h1; subst h2; subst h3
      exact ⟨hedge, by rw [hgp]; exact hcond⟩
  · rw [if_neg hcond]
    refine ⟨hinv2.1, ?_⟩
    intro u v w h
    rcases hasEdgeW_add_edge_elim h with h1 | ⟨h1, h2, h3⟩
    · exact hinv2.2 u v w h1
    · subst h1; subst h2; subst h3
      refine ⟨hedge, ?_, hpc⟩
      rw [hgp]
      omega

theorem edges_empty_getNode (u : Nat) : (Graph.empty.getNode u).edges = [] := rfl

/-- The partition facts at the `build` level.  `build`'s derived graphs
start with no edges, so every one of their edges comes from the
classification loop. -/
theorem build_partition (g : Graph) (hnd : (g.nodes.map Prod.fst).Nodup) :
    (∀ u v w, hasEdgeW (ContractionHierarchy.build g).upward_graph u v w →
      hasEdgeW (ContractionHierarchy.build g).graph u v w ∧
      ((ContractionHierarchy.build g).graph.getNode u).contraction_order <
        ((ContractionHierarchy.build g).graph.getNode v).contraction_order) ∧
    (∀ u v w, hasEdgeW (ContractionHierarchy.build g).downward_graph u v w →
      hasEdgeW (ContractionHierarchy.build g).graph v u w ∧
      ((ContractionHierarchy.build g).graph.getNode u).contraction_order ≤
        ((ContractionHierarchy.build g).graph.getNode v).contraction_order ∧
      (ContractionHierarchy.build g).graph.contains v = true) := by
  have hnd' : ((buildLoop (g.nodes.map Prod.fst).length g 0
      (g.nodes.map Prod.fst) []).1.nodes.map Prod.fst).Nodup := by
    rw [keys_buildLoop]
    exact hnd
  have hcopy : ∀ u, ((g.nodes.foldl
      (fun (h : Graph) p => h.add_node p.1 p.2.lat p.2.lon) Graph.empty).getNode
        u).edges = [] :=
    edges_nodeCopy g.nodes Graph.empty edges_empty_getNode
  have hinit : ∀ u v w, hasEdgeW (g.nodes.foldl
      (fun (h : Graph) p => h.add_node p.1 p.2.lat p.2.lon) Graph.empty) u v w →
      False := by
    intro u v w h
    obtain ⟨e, he, _, _⟩ := h
    rw [hcopy u] at he
    simp at he
  simp only [ContractionHierarchy.build]
  exact partitionEdges_edges _ hnd' _
    (fun u v w h => absurd h (hinit u v w))
    (fun u v w h => absurd h (hinit u v w))

/-! ### Soundness invariant of the bidirectional query. -/

theorem heapMinAux_mem (cur : ℚ × Nat) (l : List (ℚ × Nat)) :
    heapMinAux cur l = cur ∨ heapMinAux cur l ∈ l := by
  induction l generalizing cur with
  | nil => left; rfl
  | cons x xs ih =>
    simp only [heapMinAux]
    by_cases hx : heapLt x cur = true
    · simp only [hx, if_true]
      rcases ih x with h | h
      · right; rw [h]; exact List.mem_cons_self x xs
      · right; exact List.mem_cons_of_mem x h
    · simp only [hx, if_false]
      rcases ih cur with h | h
      · left; exact h
      · right; exact List.mem_cons_of_mem x h

theorem heapMin_mem {l : List (ℚ × Nat)} {m : ℚ × Nat} (h : heapMin l = some m) :
    m ∈ l := by
  cases l with
  | nil => simp [heapMin] at h
  | cons x xs =>
    simp only [heapMin, Option.some.injEq] at h
    rcases heapMinAux_mem x xs with h1 | h1
    · rw [← h, h1]; exact List.mem_cons_self x xs
    · rw [← h]; exact List.mem_cons_of_mem x h1

theorem popMin_mem {l : List (ℚ × Nat)} {m : ℚ × Nat} {rest : List (ℚ × Nat)}
    (h : popMin l = some (m, rest)) : m ∈ l ∧ ∀ x ∈ rest, x ∈ l := by
  unfold popMin at h
  cases hm : heapMin l with
  | none => rw [hm] at h; simp at h
  | some m2 =>
    rw [hm] at h
    simp only [Option.some.injEq, Prod.mk.injEq] at h
    obtain ⟨h1, h2⟩ := h
    subst h1
    constructor
    · exact heapMin_mem hm
    · intro x hx
      rw [← h2] at hx
      exact List.mem_of_mem_erase hx

theorem QInv_init (up down : Graph) (s t : Nat) :
    QInv up down s t (initQState s t) := by
  refine ⟨?_, ?_, ?_, ?_, ?_⟩
  · intro p hp
    simp only [initQState, List.mem_singleton] at hp
    rw [hp]
    exact PathW.nil s
  · intro u d hd
    simp only [initQState] at hd
    by_cases hu : u = s
    · subst hu
      simp at hd
      subst hd
      exact PathW.nil u
    · simp [hu] at hd
  · intro p hp
    simp only [initQState, List.mem_singleton] at hp
    rw [hp]
    exact PathW.nil t
  · intro u d hd
    simp only [initQState] at hd
    by_cases hu : u = t
    · subst hu
      simp at hd
      subst hd
      exact PathW.nil u
    · simp [hu] at hd
  · intro b hb
    simp [initQState] at hb

/-- Effect of one visit on the invariant pieces of its own side, plus the
provenance of any `best` update. -/
theorem visitNode_inv (G : Graph) (sd : Nat) (otherDist dist : Nat → Option ℚ)
    (heap : List (ℚ × Nat)) (visited : List Nat) (best : Option ℚ) (d : ℚ)
    (u : Nat) (hu : PathW G sd u d)
    (hdist : ∀ x dx, dist x = some dx → PathW G sd x dx)
    (hheap : ∀ p ∈ heap, PathW G sd p.2 p.1) :
    (∀ x dx, (visitNode G otherDist dist heap visited best d u).1 x = some dx →
      PathW G sd x dx) ∧
    (∀ p ∈ (visitNode G otherDist dist heap visited best d u).2.1,
      PathW G sd p.2 p.1) ∧
    (∀ b, (visitNode G otherDist dist heap visited best d u).2.2.2 = some b →
      best = some b ∨ ∃ od, otherDist u = some od ∧ b = od + d) := by
  have hfold : (∀ x dx, ((G.getNode u).edges.foldl
      (fun (s0 : (Nat → Option ℚ) × List (ℚ × Nat)) e =>
        let cand := d + e.weight
        if ltInf cand (s0.1 e.target) then
          (fun v => if v = e.target then some cand else s0.1 v,
           s0.2 ++ [(cand, e.target)])
        else s0) (dist, heap)).1 x = some dx → PathW G sd x dx) ∧
      (∀ p ∈ ((G.getNode u).edges.foldl
      (fun (s0 : (Nat → Option ℚ) × List (ℚ × Nat)) e =>
        let cand := d + e.weight
        if ltInf cand (s0.1 e.target) then
          (fun v => if v = e.target then some cand else s0.1 v,
           s0.2 ++ [(cand, e.target)])
        else s0) (dist, heap)).2, PathW G sd p.2 p.1) := by
    refine foldl_inv (fun s0 : (Nat → Option ℚ) × List (ℚ × Nat) =>
      (∀ x dx, s0.1 x = some dx → PathW G sd x dx) ∧
      (∀ p ∈ s0.2, PathW G sd p.2 p.1)) _ _ _ ⟨hdist, hheap⟩ ?_
    intro acc e he hinv
    simp only []
    by_cases hlt : ltInf (d + e.weight) (acc.1 e.target) = true
    · simp only [hlt, if_true]
      have hnew : PathW G sd e.target (d + e.weight) :=
        hu.snoc ⟨e, he, rfl, rfl⟩
      refine ⟨?_, ?_⟩
      · intro x dx hx
        by_cases hxe : x = e.target
        · subst hxe
          simp at hx
          subst hx
          exact hnew
        · simp only [hxe, if_false] at hx
          exact hinv.1 x dx hx
      · intro p hp
        rcases List.mem_append.mp hp with hp | hp
        · exact hinv.2 p hp
        · simp only [List.mem_singleton] at hp
          rw [hp]
          exact hnew
    · simp only [hlt, if_false]
      exact hinv
  refine ⟨hfold.1, hfold.2, ?_⟩
  intro b hb
  simp only [visitNode] at hb
  cases hod : otherDist u with
  | none =>
    rw [hod] at hb
    exact Or.inl hb
  | some od =>
    rw [hod] at hb
    by_cases hlt : ltInf (od + d) best = true
    · simp only [hlt, if_true, Option.some.injEq] at hb
      right
      exact ⟨od, rfl, hb.symm⟩
    · simp only [hlt, if_false] at hb
      exact Or.inl hb

theorem queryIter_inv (up down : Graph) (s t : Nat) (st : QState)
    (h : QInv up down s t st) : QInv up down s t (queryIter up down st).1 := by
  obtain ⟨hfh, hfd, hbh, hbd, hbest⟩ := h
  unfold queryIter
  split
  · exact ⟨hfh, hfd, hbh, hbd, hbest⟩
  split
  · exact ⟨hfh, hfd, hbh, hbd, hbest⟩
  next d u rest hpop =>
    obtain ⟨hmem, hsub⟩ := popMin_mem hpop
    have hud : PathW up s u d := hfh (d, u) hmem
    have hrest : ∀ p ∈ rest, PathW up s p.2 p.1 := fun p hp => hfh p (hsub p hp)
    split
    · exact ⟨hrest, hfd, hbh, hbd, hbest⟩
    split
    · exact ⟨hrest, hfd, hbh, hbd, hbest⟩
    obtain ⟨hv1, hv2, hv3⟩ :=
      visitNode_inv up s st.bdist st.fdist rest st.fvisited st.best d u hud hfd hrest
    have hbest1 : ∀ b,
        (visitNode up st.bdist st.fdist rest st.fvisited st.best d u).2.2.2 = some b →
        ∃ u2 d1 d2, PathW up s u2 d1 ∧ PathW down t u2 d2 ∧ b = d1 + d2 := by
      intro b hb
      rcases hv3 b hb with hb1 | ⟨od, hod, hb2⟩
      · exact hbest b hb1
      · exact ⟨u, d, od, hud, hbd u od hod, by rw [hb2, add_comm]⟩
    simp only []
    split
    · exact ⟨hv2, hv1, hbh, hbd, hbest1⟩
    next d2 u2 rest2 hpop2 =>
      obtain ⟨hmem2, hsub2⟩ := popMin_mem hpop2
      have hud2 : PathW down t u2 d2 := hbh (d2, u2) hmem2
      have hrest2 : ∀ p ∈ rest2, PathW down t p.2 p.1 := fun p hp => hbh p (hsub2 p hp)
      split
      · exact ⟨hv2, hv1, hrest2, hbd, hbest1⟩
      split
      · exact ⟨hv2, hv1, hrest2, hbd, hbest1⟩
      obtain ⟨hw1, hw2, hw3⟩ :=
        visitNode_inv down t
          (visitNode up st.bdist st.fdist rest st.fvisited st.best d u).1 st.bdist
          rest2 st.bvisited
          (visitNode up st.bdist st.fdist rest st.fvisited st.best d u).2.2.2 d2 u2
          hud2 hbd hrest2
      refine ⟨hv2, hv1, hw2, hw1, ?_⟩
      intro b hb
      rcases hw3 b hb with hb1 | ⟨od, hod, hb2⟩
      · exact hbest1 b hb1
      · exact ⟨u2, od, d2, hv1 u2 od hod, hud2, by rw [hb2]⟩

theorem queryLoop_inv (up down : Graph) (s t : Nat) :
    ∀ (fuel : Nat) (st : QState), QInv up down s t st →
      QInv up down s t (queryLoop up down fuel st) := by
  intro fuel
  induction fuel with
  | zero => intro st h; exact h
  | succ n ih =>
    intro st h
    rw [queryLoop]
    cases hit : queryIter up down st with
    | mk st1 cont =>
      have h1 : QInv up down s t st1 := by
        have := queryIter_inv up down s t st h
        rw [hit] at this
        exact this
      cases cont with
      | false => exact h1
      | true => exact ih st1 h1

/-- Reversal: a path in the (reversed-edge) downward graph is a path of the
augmented graph in the opposite direction. -/
theorem PathW_reverse_map {down g2 : Graph}
    (hmap : ∀ u v w, hasEdgeW down u v w → hasEdgeW g2 v u w) :
    ∀ {a b : Nat} {w : ℚ}, PathW down a b w → PathW g2 b a w := by
  intro a b w h
  induction h with
  | nil u => exact PathW.nil u
  | cons he _ ih =>
    rw [add_comm]
    exact ih.snoc (hmap _ _ _ he)

/-- Soundness core: a finite query answer is the weight of a real path of
the fully built (shortcut-augmented) graph, obtained by concatenating the
up-path and the reversed down-path that produced `best`. -/
theorem build_query_path_aug (g : Graph) (hnd : (g.nodes.map Prod.fst).Nodup)
    (s t : Nat) (b : ℚ)
    (hq : (ContractionHierarchy.build g).query s t = some b) :
    PathW (ContractionHierarchy.build g).graph s t b := by
  obtain ⟨hup, hdown⟩ := build_partition g hnd
  have hfin := queryLoop_inv (ContractionHierarchy.build g).upward_graph
    (ContractionHierarchy.build g).downward_graph s t
    (queryFuel (ContractionHierarchy.build g)) (initQState s t)
    (QInv_init _ _ s t)
  have hb := hfin.2.2.2.2 b hq
  obtain ⟨u, d1, d2, hp1, hp2, hbe⟩ := hb
  have hup' : PathW (ContractionHierarchy.build g).graph s u d1 :=
    PathW.mono (fun x y w h => (hup x y w h).1) hp1
  have hdown' : PathW (ContractionHierarchy.build g).graph u t d2 :=
    PathW_reverse_map (fun x y w h => (hdown x y w h).1) hp2
  rw [hbe]
  exact hup'.append hdown'

theorem build_graph_paths (g : Graph) :
    ∀ s t w, PathW (ContractionHierarchy.build g).graph s t w ↔ PathW g s t w := by
  intro s t w
  simp only [ContractionHierarchy.build]
  exact buildLoop_paths (g.nodes.map Prod.fst).length g 0 (g.nodes.map Prod.fst) [] s t w

/-- C9: a finite query answer is the weight of an actual path of the
original graph (no underestimation). -/
theorem query_sound (g : Graph) (s t : Nat) (b : ℚ)
    (hnd : (g.nodes.map Prod.fst).Nodup)
    (hq : (ContractionHierarchy.build g).query s t = some b) :
    PathW g s t b ∧ (∀ D : ℚ, (∀ w, PathW g s t w → D ≤ w) → D ≤ b) := by
  have h1 := build_query_path_aug g hnd s t b hq
  have h2 : PathW g s t b := (build_graph_paths g s t b).mp h1
  exact ⟨h2, fun D hD => hD b h2⟩

/-- C4: the contraction loop runs exactly once per vertex, and afterwards
the rank assignment is a permutation of `0, ..., n-1`. -/
theorem build_rank_permutation (g : Graph)
    (hnd : (g.nodes.map Prod.fst).Nodup) :
    (ContractionHierarchy.build g).contraction_order.length = g.nodes.length ∧
    ((g.nodes.map Prod.fst).map
      (fun v => ((ContractionHierarchy.build g).graph.getNode v).contraction_order)).Perm
      ((List.range g.nodes.length).map Int.ofNat) := by
  obtain ⟨h1, h2, _⟩ := buildLoop_ranks (g.nodes.map Prod.fst).length g 0
    (g.nodes.map Prod.fst) [] le_rfl hnd (fun v hv => contains_of_mem_keys hv)
  simp only [ContractionHierarchy.build]
  constructor
  · rw [h1]
    simp
  · refine h2.trans (List.Perm.of_eq ?_)
    rw [List.length_map]
    apply List.map_congr_left
    intro i hi
    simp [Int.ofNat_eq_coe]

/-- C10: `contract_node` and `build` are purely additive: the key list of
the graph store is unchanged, every pre-existing edge record survives as an
unchanged initial segment of its node's edge list, vertex identity and
position metadata are untouched, and every vertex is present in both
derived graphs. -/
theorem build_additive (g : Graph) :
    ((ContractionHierarchy.build g).graph.nodes.map Prod.fst =
      g.nodes.map Prod.fst) ∧
    (∀ v, ∃ rest, ((ContractionHierarchy.build g).graph.getNode v).edges =
      (g.getNode v).edges ++ rest) ∧
    (∀ v, nodeMeta ((ContractionHierarchy.build g).graph.getNode v) =
      nodeMeta (g.getNode v)) ∧
    (∀ v, ((ContractionHierarchy.build g).upward_graph.contains v = true ↔
      g.contains v = true) ∧
      ((ContractionHierarchy.build g).downward_graph.contains v = true ↔
      g.contains v = true)) ∧
    (∀ nid, ((contract_node g nid).1.nodes.map Prod.fst = g.nodes.map Prod.fst) ∧
      (∀ v, ∃ rest, ((contract_node g nid).1.getNode v).edges =
        (g.getNode v).edges ++ rest) ∧
      (∀ v, nodeMeta ((contract_node g nid).1.getNode v) = nodeMeta (g.getNode v))) := by
  refine ⟨?_, ?_, ?_, ?_, ?_⟩
  · simp only [ContractionHierarchy.build]
    exact keys_buildLoop (g.nodes.map Prod.fst).length g 0 (g.nodes.map Prod.fst) []
  · intro v
    simp only [ContractionHierarchy.build]
    exact edgesExtend_buildLoop (g.nodes.map Prod.fst).length g 0
      (g.nodes.map Prod.fst) [] v
  · intro v
    simp only [ContractionHierarchy.build]
    exact meta_buildLoop (g.nodes.map Prod.fst).length g 0
      (g.nodes.map Prod.fst) [] v
  · intro v
    have hcopy := contains_nodeCopy g.nodes Graph.empty v
    have hkey : (Graph.empty.contains v = true ∨ v ∈ g.nodes.map Prod.fst) ↔
        (g.contains v = true) := by
      constructor
      · rintro (h | h)
        · simp [Graph.empty, Graph.contains, Graph.find?, findNode?] at h
        · exact contains_of_mem_keys h
      · intro h
        exact Or.inr (mem_keys_of_contains h)
    simp only [ContractionHierarchy.build]
    constructor
    · rw [(contains_partitionEdges _ _ v).1]
      exact hcopy.trans hkey
    · rw [(contains_partitionEdges _ _ v).2]
      exact hcopy.trans hkey
  · intro nid
    exact ⟨keys_contract_node g nid,
      fun v => edgesExtend_contract_node g nid v,
      fun v => meta_contract_node g nid v⟩

/-- A key absent from the store resolves to the placeholder record. -/
theorem getNode_not_contains {g : Graph} {v : Nat} (h : g.contains v = false) :
    g.getNode v = dummyNode := by
  cases hf : g.find? v with
  | none => simp [Graph.getNode, hf]
  | some n => simp [Graph.contains, hf] at h

/-- `build` preserves vertex presence. -/
theorem build_contains (g : Graph) (v : Nat) :
    (ContractionHierarchy.build g).graph.contains v = g.contains v := by
  refine contains_congr_keys ?_ v
  simp only [ContractionHierarchy.build]
  exact keys_buildLoop (g.nodes.map Prod.fst).length g 0 (g.nodes.map Prod.fst) []

/-- Every present vertex receives a non-negative rank during `build`. -/
theorem build_order_nonneg (g : Graph) (hnd : (g.nodes.map Prod.fst).Nodup)
    (v : Nat) (hv : g.contains v = true) :
    0 ≤ ((ContractionHierarchy.build g).graph.getNode v).contraction_order := by
  have hperm := (build_rank_permutation g hnd).2
  have hk : v ∈ g.nodes.map Prod.fst := mem_keys_of_contains hv
  have hmem : ((ContractionHierarchy.build g).graph.getNode v).contraction_order ∈
      (g.nodes.map Prod.fst).map
        (fun x => ((ContractionHierarchy.build g).graph.getNode x).contraction_order) :=
    List.mem_map_of_mem _ hk
  have hmem2 := hperm.mem_iff.mp hmem
  obtain ⟨i, _, hi⟩ := List.mem_map.mp hmem2
  rw [← hi]
  exact Int.ofNat_nonneg i

/-- Ranks are injective over the present vertices: the rank list is a
permutation of the duplicate-free `0..n-1`. -/
theorem build_order_inj (g : Graph) (hnd : (g.nodes.map Prod.fst).Nodup)
    (v1 v2 : Nat) (h1 : g.contains v1 = true) (h2 : g.contains v2 = true)
    (he : ((ContractionHierarchy.build g).graph.getNode v1).contraction_order =
      ((ContractionHierarchy.build g).graph.getNode v2).contraction_order) :
    v1 = v2 := by
  have hperm := (build_rank_permutation g hnd).2
  have hrange : ((List.range g.nodes.length).map Int.ofNat).Nodup :=
    (List.nodup_range _).map (fun a b hab => Int.ofNat.inj hab)
  have hmapnd : ((g.nodes.map Prod.fst).map
      (fun x => ((ContractionHierarchy.build g).graph.getNode x).contraction_order)).Nodup :=
    hperm.nodup_iff.mpr hrange
  exact List.inj_on_of_nodup_map hmapnd (mem_keys_of_contains h1)
    (mem_keys_of_contains h2) he

/-- The upward-graph half of the monotone-rank invariant, and the weak
(downward) half together with its equality case: a stored downward edge
with equal endpoint ranks must be a self-loop, since present vertices have
pairwise distinct non-negative ranks and absent sources have rank -1. -/
theorem build_monotone_ranks (g : Graph) (hnd : (g.nodes.map Prod.fst).Nodup) :
    (∀ u, ∀ e ∈ ((ContractionHierarchy.build g).upward_graph.getNode u).edges,
      ((ContractionHierarchy.build g).graph.getNode u).contraction_order <
        ((ContractionHierarchy.build g).graph.getNode e.target).contraction_order) ∧
    (∀ u, ∀ e ∈ ((ContractionHierarchy.build g).downward_graph.getNode u).edges,
      (((ContractionHierarchy.build g).graph.getNode u).contraction_order ≤
        ((ContractionHierarchy.build g).graph.getNode e.target).contraction_order) ∧
      (((ContractionHierarchy.build g).graph.getNode u).contraction_order =
        ((ContractionHierarchy.build g).graph.getNode e.target).contraction_order →
        u = e.target)) := by
  obtain ⟨hup, hdown⟩ := build_partition g hnd
  refine ⟨fun u e he => (hup u e.target e.weight ⟨e, he, rfl, rfl⟩).2,
    fun u e he => ?_⟩
  obtain ⟨hedge, hle, hcont⟩ := hdown u e.target e.weight ⟨e, he, rfl, rfl⟩
  have hct : g.contains e.target = true := by
    rw [← build_contains]
    exact hcont
  refine ⟨hle, fun heq => ?_⟩
  cases hcu : g.contains u with
  | true => exact build_order_inj g hnd u e.target hcu hct heq
  | false =>
    exfalso
    have hdum : (ContractionHierarchy.build g).graph.getNode u = dummyNode := by
      refine getNode_not_contains ?_
      rw [build_contains]
      exact hcu
    have h1 : ((ContractionHierarchy.build g).graph.getNode u).contraction_order =
        -1 := by
      rw [hdum]
      rfl
    have h2 := build_order_nonneg g hnd e.target hct
    rw [heq] at h1
    omega

/-- The `k * (k - 1)` estimate including its below-two early return, as an
integer. -/
theorem estimate_cast (k : Nat) :
    (((if k < 2 then 0 else k * (k - 1) : Nat)) : Int) =
      (k : Int) * ((k : Int) - 1) := by
  by_cases h : k < 2
  · rw [if_pos h]
    interval_cases k <;> simp
  · rw [if_neg h]
    have h1 : 1 ≤ k := by omega
    push_cast [h1]
    ring

/-- `compute_importance` agrees with the multiplicity-counting formula for
every graph state and vertex. -/
theorem compute_importance_eq_formula (g : Graph) (v : Nat) :
    compute_importance g v = importanceFormula g v := by
  unfold compute_importance importanceFormula estimate_shortcuts
  simp only [List.length_map]
  rw [estimate_cast]

theorem query_break_stops_both (up down : Graph) (st : QState) (d : ℚ) (u : Nat)
    (rest : List (ℚ × Nat)) (fuel : Nat)
    (hpop : popMin st.fheap = some ((d, u), rest))
    (hbne : st.bheap.isEmpty = false)
    (hgt : gtBest d st.best = true) :
    queryLoop up down (fuel + 1) st = { st with fheap := rest } ∧
    (∀ st2 : QState, (st2.fheap.isEmpty || st2.bheap.isEmpty) = true →
      ∀ fl, queryLoop up down fl st2 = st2) := by
  constructor
  · have hfe : st.fheap.isEmpty = false := by
      cases hf : st.fheap with
      | nil =>
        rw [hf] at hpop
        simp [popMin, heapMin] at hpop
      | cons a l => rfl
    rw [queryLoop]
    have hiter : queryIter up down st = ({ st with fheap := rest }, false) := by
      unfold queryIter
      rw [hfe, hbne]
      simp only [Bool.or_false]
      rw [hpop]
      simp [hgt]
    rw [hiter]
  · intro st2 h2 fl
    cases fl with
    | zero => rfl
    | succ n =>
      rw [queryLoop]
      have hiter : queryIter up down st2 = (st2, false) := by
        unfold queryIter
        rw [h2]
        simp
      rw [hiter]

/-- The backward-side `break`: when, after a forward visit, the backward
pop's key exceeds the updated `best`, the entire query loop terminates at
once as well. -/
theorem query_bwd_break_stops_both (up down : Graph) (st : QState) (d : ℚ)
    (u : Nat) (rest : List (ℚ × Nat)) (d2 : ℚ) (u2 : Nat)
    (rest2 : List (ℚ × Nat)) (fuel : Nat)
    (hpop : popMin st.fheap = some ((d, u), rest))
    (hbne : st.bheap.isEmpty = false)
    (hngt : gtBest d st.best = false)
    (hnvis : u ∉ st.fvisited)
    (hpop2 : popMin st.bheap = some ((d2, u2), rest2))
    (hgt2 : gtBest d2 (fwdVisitState up st d u rest).best = true) :
    queryLoop up down (fuel + 1) st =
      { fwdVisitState up st d u rest with bheap := rest2 } := by
  have hfe : st.fheap.isEmpty = false := by
    cases hf : st.fheap with
    | nil =>
      rw [hf] at hpop
      simp [popMin, heapMin] at hpop
    | cons a l => rfl
  rw [queryLoop]
  have hiter : queryIter up down st =
      ({ fwdVisitState up st d u rest with bheap := rest2 }, false) := by
    unfold queryIter
    rw [hfe, hbne]
    simp only [Bool.or_false]
    rw [hpop]
    simp only [fwdVisitState] at hgt2 ⊢
    simp [hngt, hnvis, hpop2, hgt2]
  rw [hiter]

/-! ### The claims. -/

unseal Rat.add Rat.mul Rat.inv in
/-- Claim C1 (code bug): the hierarchical query is claimed to agree with
plain Dijkstra on every non-negatively weighted directed graph, but on the
directed path `1 → 2 → 3` the built hierarchy reports no path from 1 to 3
while Dijkstra reports distance 2: contraction only pairs out-neighbors,
so the needed shortcut past vertex 2 is never inserted. -/
theorem ch_query_misses_directed_path :
    (ContractionHierarchy.build gC1).query 1 3 = none ∧
    gC1.dijkstra 1 3 = some 2 :=
  ⟨by decide, by decide⟩

/-- Claim C2: after any sequence of contract-and-rank operations, every
pair of vertices admits exactly the same path weights as in the original
graph, hence the same shortest-path distance and the same no-path verdict:
contraction never shortens and never lengthens any true distance. -/
theorem contraction_sequence_preserves_distances (g : Graph)
    (steps : List (Nat × Nat)) (s t : Nat) (w : ℚ) :
    PathW (contractionSequence g steps) s t w ↔ PathW g s t w :=
  contractionSequence_paths steps g s t w

/-- Claim C3 (counterexample): on the single-vertex self-loop graph, after
`build()` the downward graph stores the edge `1 → 1` whose endpoints share
rank 0, so the claimed strict inequality `rank(source) < rank(target)`
fails for stored downward edges. -/
theorem downward_rank_strictness_fails :
    (⟨1, 1⟩ : Edge) ∈
      ((ContractionHierarchy.build gLoop).downward_graph.getNode 1).edges ∧
    ¬ (((ContractionHierarchy.build gLoop).graph.getNode 1).contraction_order <
       ((ContractionHierarchy.build gLoop).graph.getNode 1).contraction_order) :=
  ⟨by decide, by decide⟩

/-- Claim C3 (amended): after `build()` every upward edge satisfies
`rank(source) < rank(target)`, and every stored downward edge satisfies
`rank(source) ≤ rank(target)` with equality exactly for self-loops: a
stored downward edge whose endpoint ranks are equal has equal endpoints. -/
theorem build_monotone_ranks_holds (g : Graph)
    (hnd : (g.nodes.map Prod.fst).Nodup) :
    (∀ u, ∀ e ∈ ((ContractionHierarchy.build g).upward_graph.getNode u).edges,
      ((ContractionHierarchy.build g).graph.getNode u).contraction_order <
        ((ContractionHierarchy.build g).graph.getNode e.target).contraction_order) ∧
    (∀ u, ∀ e ∈ ((ContractionHierarchy.build g).downward_graph.getNode u).edges,
      (((ContractionHierarchy.build g).graph.getNode u).contraction_order ≤
        ((ContractionHierarchy.build g).graph.getNode e.target).contraction_order) ∧
      (((ContractionHierarchy.build g).graph.getNode u).contraction_order =
        ((ContractionHierarchy.build g).graph.getNode e.target).contraction_order →
        u = e.target)) :=
  build_monotone_ranks g hnd

theorem build_monotone_ranks_holds_witness :
    (∀ u, ∀ e ∈ ((ContractionHierarchy.build gSample).upward_graph.getNode u).edges,
      ((ContractionHierarchy.build gSample).graph.getNode u).contraction_order <
        ((ContractionHierarchy.build gSample).graph.getNode e.target).contraction_order) ∧
    (∀ u, ∀ e ∈ ((ContractionHierarchy.build gSample).downward_graph.getNode u).edges,
      (((ContractionHierarchy.build gSample).graph.getNode u).contraction_order ≤
        ((ContractionHierarchy.build gSample).graph.getNode e.target).contraction_order) ∧
      (((ContractionHierarchy.build gSample).graph.getNode u).contraction_order =
        ((ContractionHierarchy.build gSample).graph.getNode e.target).contraction_order →
        u = e.target)) :=
  build_monotone_ranks_holds gSample (by decide)

/-- Claim C4: on a store with distinct keys, `build()`'s contraction loop
records exactly one contraction per vertex (so it runs exactly `n`
iterations and never fails), and the final ranks are a permutation of
`0, ..., n-1`. -/
theorem build_terminates_rank_permutation (g : Graph)
    (hnd : (g.nodes.map Prod.fst).Nodup) :
    (ContractionHierarchy.build g).contraction_order.length = g.nodes.length ∧
    ((g.nodes.map Prod.fst).map
      (fun v => ((ContractionHierarchy.build g).graph.getNode v).contraction_order)).Perm
      ((List.range g.nodes.length).map Int.ofNat) :=
  build_rank_permutation g hnd

theorem build_terminates_rank_permutation_witness :
    (ContractionHierarchy.build gSample).contraction_order.length =
      gSample.nodes.length ∧
    ((gSample.nodes.map Prod.fst).map
      (fun v => ((ContractionHierarchy.build gSample).graph.getNode v).contraction_order)).Perm
      ((List.range gSample.nodes.length).map Int.ofNat) :=
  build_terminates_rank_permutation gSample (by decide)

/-- Claim C5 (code bug): `add_edge` with an absent endpoint is claimed to
fail loudly with `UnknownVertex`, but the code silently returns the graph
unchanged: on the single-vertex store, adding an edge to the unknown
vertex 2 is a no-op and raises nothing. -/
theorem add_edge_unknown_target_silent :
    g1v.add_edge 1 2 1 = g1v ∧ (g1v.add_edge 1 2 1).num_edges = 0 :=
  ⟨by decide, by decide⟩

unseal Rat.add Rat.mul Rat.inv in
/-- Claim C6 (counterexample): the query loop is claimed to stop one side
only and keep refining `best` until both frontiers' minimum keys exceed
it; but on `gT` the loop exits (via the two-sided `break`) in a state
where both frontiers are nonempty and the backward frontier's minimum key
does not exceed `best`. -/
theorem query_abandons_pending_frontier :
    claimedExitCheck (queryFinal (ContractionHierarchy.build gT) 1 2) = false ∧
    (queryFinal (ContractionHierarchy.build gT) 1 2).fheap ≠ [] ∧
    (queryFinal (ContractionHierarchy.build gT) 1 2).bheap ≠ [] :=
  ⟨by decide, by decide, by decide⟩

/-- Claim C6 (amended): a popped key exceeding `best` terminates the
entire query loop at once, on whichever frontier it is popped: a forward
pop above `best` ends the loop with the state as popped, a backward pop
above the (possibly just-updated) `best` after a forward visit ends the
loop likewise, and the loop also stops as soon as either frontier is
empty, regardless of the other side's pending keys. -/
theorem query_break_stops_both_sides (up down : Graph) (st : QState) (d : ℚ)
    (u : Nat) (rest : List (ℚ × Nat)) (fuel : Nat)
    (hpop : popMin st.fheap = some ((d, u), rest))
    (hbne : st.bheap.isEmpty = false)
    (hgt : gtBest d st.best = true) :
    queryLoop up down (fuel + 1) st = { st with fheap := rest } ∧
    (∀ st2 : QState, ∀ d2 : ℚ, ∀ u2 : Nat, ∀ rest2 : List (ℚ × Nat),
      ∀ d3 : ℚ, ∀ u3 : Nat, ∀ rest3 : List (ℚ × Nat), ∀ fl : Nat,
      popMin st2.fheap = some ((d2, u2), rest2) →
      st2.bheap.isEmpty = false →
      gtBest d2 st2.best = false →
      u2 ∉ st2.fvisited →
      popMin st2.bheap = some ((d3, u3), rest3) →
      gtBest d3 (fwdVisitState up st2 d2 u2 rest2).best = true →
      queryLoop up down (fl + 1) st2 =
        { fwdVisitState up st2 d2 u2 rest2 with bheap := rest3 }) ∧
    (∀ st2 : QState, (st2.fheap.isEmpty || st2.bheap.isEmpty) = true →
      ∀ fl, queryLoop up down fl st2 = st2) :=
  ⟨(query_break_stops_both up down st d u rest fuel hpop hbne hgt).1,
   fun st2 d2 u2 rest2 d3 u3 rest3 fl h1 h2 h3 h4 h5 h6 =>
     query_bwd_break_stops_both up down st2 d2 u2 rest2 d3 u3 rest3 fl
       h1 h2 h3 h4 h5 h6,
   (query_break_stops_both up down st d u rest fuel hpop hbne hgt).2⟩

theorem query_break_stops_both_sides_witness :
    queryLoop Graph.empty Graph.empty 5 wState = { wState with fheap := [(3, 7)] } ∧
    (∀ st2 : QState, ∀ d2 : ℚ, ∀ u2 : Nat, ∀ rest2 : List (ℚ × Nat),
      ∀ d3 : ℚ, ∀ u3 : Nat, ∀ rest3 : List (ℚ × Nat), ∀ fl : Nat,
      popMin st2.fheap = some ((d2, u2), rest2) →
      st2.bheap.isEmpty = false →
      gtBest d2 st2.best = false →
      u2 ∉ st2.fvisited →
      popMin st2.bheap = some ((d3, u3), rest3) →
      gtBest d3 (fwdVisitState Graph.empty st2 d2 u2 rest2).best = true →
      queryLoop Graph.empty Graph.empty (fl + 1) st2 =
        { fwdVisitState Graph.empty st2 d2 u2 rest2 with bheap := rest3 }) ∧
    (∀ st2 : QState, (st2.fheap.isEmpty || st2.bheap.isEmpty) = true →
      ∀ fl, queryLoop Graph.empty Graph.empty fl st2 = st2) :=
  query_break_stops_both_sides Graph.empty Graph.empty wState 2 9 [(3, 7)] 4
    (by decide) (by decide) (by decide)

/-- Claim C7 (counterexample): the importance of a vertex with two parallel
edges to one uncontracted neighbor is 4 in the code (counts per edge), but
the claimed formula over distinct neighbors gives 2. -/
theorem importance_distinct_neighbors_fails :
    compute_importance gDup 1 = 4 ∧ claimedImportance gDup 1 = 2 :=
  ⟨by decide, by decide⟩

/-- Claim C7 (amended): for every graph state and vertex, the computed
importance equals `(degree - contracted_edge_count) + k*(k-1) +
shortcuts_already_added`, where `contracted_edge_count` and `k` count
outgoing edges to ranked resp. unranked targets with multiplicity. -/
theorem compute_importance_formula_holds (g : Graph) (v : Nat) :
    compute_importance g v = importanceFormula g v :=
  compute_importance_eq_formula g v

unseal Rat.add Rat.mul Rat.inv in
/-- Claim C8: on the sample hub graph, the built hierarchy answers
`query(1,4) = query(1,2) = query(2,3) = 1`, matching plain Dijkstra on the
same (pre-build) graph. -/
theorem sample_hub_queries :
    (ContractionHierarchy.build gSample).query 1 4 = some 1 ∧
    (ContractionHierarchy.build gSample).query 1 2 = some 1 ∧
    (ContractionHierarchy.build gSample).query 2 3 = some 1 ∧
    gSample.dijkstra 1 4 = some 1 ∧
    gSample.dijkstra 1 2 = some 1 ∧
    gSample.dijkstra 2 3 = some 1 :=
  ⟨by decide, by decide, by decide, by decide, by decide, by decide⟩

/-- Claim C9: on a store with distinct keys, a finite query answer is the
weight of an actual path of the original graph from source to target, and
is therefore never below any lower bound on the path weights (no
underestimation of the true shortest distance). -/
theorem query_never_underestimates (g : Graph) (s t : Nat) (b : ℚ)
    (hnd : (g.nodes.map Prod.fst).Nodup)
    (hq : (ContractionHierarchy.build g).query s t = some b) :
    PathW g s t b ∧ (∀ D : ℚ, (∀ w, PathW g s t w → D ≤ w) → D ≤ b) :=
  query_sound g s t b hnd hq

unseal Rat.add Rat.mul Rat.inv in
theorem query_never_underestimates_witness :
    PathW gSample 1 2 1 ∧
    (∀ D : ℚ, (∀ w, PathW gSample 1 2 w → D ≤ w) → D ≤ 1) :=
  query_never_underestimates gSample 1 2 1 (by decide) (by decide)

/-- Claim C10: `contract_node` and `build` only ever add: the key list of
the store is unchanged, every pre-existing edge record survives unchanged
as an initial segment of its node's edge list (so no weight, target or
edge is modified or deleted), vertex identity and position metadata are
untouched, and after `build` every vertex of the store is present in both
the upward and the downward graph. -/
theorem build_is_purely_additive (g : Graph) :
    ((ContractionHierarchy.build g).graph.nodes.map Prod.fst =
      g.nodes.map Prod.fst) ∧
    (∀ v, ∃ rest, ((ContractionHierarchy.build g).graph.getNode v).edges =
      (g.getNode v).edges ++ rest) ∧
    (∀ v, nodeMeta ((ContractionHierarchy.build g).graph.getNode v) =
      nodeMeta (g.getNode v)) ∧
    (∀ v, ((ContractionHierarchy.build g).upward_graph.contains v = true ↔
      g.contains v = true) ∧
      ((ContractionHierarchy.build g).downward_graph.contains v = true ↔
      g.contains v = true)) ∧
    (∀ nid, ((contract_node g nid).1.nodes.map Prod.fst = g.nodes.map Prod.fst) ∧
      (∀ v, ∃ rest, ((contract_node g nid).1.getNode v).edges =
        (g.getNode v).edges ++ rest) ∧
      (∀ v, nodeMeta ((contract_node g nid).1.getNode v) = nodeMeta (g.getNode v))) :=
  build_additive g

end CHSpec
